import Mathlib

/-!
Verification of the dogechain layered account-state snapshot engine and its
memory-backed key-value store.

The memory KV store (`memorydb`: `Database`, `batch`, `iterator`, `snapshot`)
is embedded from the repository source.  The snapshot engine itself
(`diskLayer`, `Tree.Update`, `Tree.Cap`, the raw codec and the disk-layer
account iterator) is present in the repository only through its test file, so
those definitions are modelled from the specification, as marked on each
definition.

Byte strings are modelled as `List Nat`, compared in lexicographic byte order
exactly as Go compares `string` / `bytes.Compare`.
-/

/-- Bytes is the model of a Go byte slice or string: a list of byte values. -/
abbrev Bytes := List Nat

/-- Lexicographic order on byte strings, `bytesLe a b` models
`bytes.Compare(a, b) <= 0` (equivalently Go string `a <= b`). -/
def bytesLe : Bytes → Bytes → Bool
  | [], _ => true
  | _ :: _, [] => false
  | a :: as, b :: bs => if a < b then true else if b < a then false else bytesLe as bs

/-- Strict lexicographic order, `bytesLt a b` models `bytes.Compare(a, b) < 0`. -/
def bytesLt : Bytes → Bytes → Bool
  | [], [] => false
  | [], _ :: _ => true
  | _ :: _, [] => false
  | a :: as, b :: bs => if a < b then true else if b < a then false else bytesLt as bs

/-- Entries models the contents of a Go `map[string][]byte`: an association
list from full binary keys to values.  Go map keys are unique; theorems that
depend on uniqueness take a `Nodup` hypothesis on `keysOf`. -/
abbrev Entries := List (Bytes × Bytes)

/-- The list of keys of an entry table. -/
def keysOf (e : Entries) : List Bytes := e.map Prod.fst

/-- Lookup in the entry table, modelling `db[key]` on a Go map. -/
def lookupE : Entries → Bytes → Option Bytes
  | [], _ => none
  | (k, v) :: r, q => if k = q then some v else lookupE r q

/-- Insert or overwrite a key, modelling `db[key] = value`. -/
def setE : Entries → Bytes → Bytes → Entries
  | [], k, v => [(k, v)]
  | (k', v') :: r, k, v => if k' = k then (k, v) :: r else (k', v') :: setE r k v

/-- Remove a key, modelling `delete(db, key)`. -/
def delE : Entries → Bytes → Entries
  | [], _ => []
  | (k', v') :: r, k => if k' = k then delE r k else (k', v') :: delE r k

/-- A buffered mutation against the entry table: a keyed put or delete. -/
inductive KOp where
  | setOp (k v : Bytes)
  | delOp (k : Bytes)
deriving DecidableEq

/-- The key an operation acts on. -/
def KOp.key : KOp → Bytes
  | .setOp k _ => k
  | .delOp k => k

/-- Apply a single operation to the entry table. -/
def applyKOp (e : Entries) : KOp → Entries
  | .setOp k v => setE e k v
  | .delOp k => delE e k

/-- Apply the operations in order, first to last (the order Go's
`batch.Write` loop and the flattening code issue them in). -/
def applyKOps (e : Entries) (ops : List KOp) : Entries := ops.foldl applyKOp e

/-- The last operation in the list whose key is `q`, if any. -/
def lastOpOn (q : Bytes) : List KOp → Option KOp
  | [] => none
  | op :: rest => (lastOpOn q rest).or (if op.key = q then some op else none)

/-- Boolean prefix test on byte strings, modelling `strings.HasPrefix`. -/
def hasPre : Bytes → Bytes → Bool
  | [], _ => true
  | _ :: _, [] => false
  | p :: ps, k :: ks => if p = k then hasPre ps ks else false

/-- Ordering pairs of entries by key, used to model `sort.Strings` over the
collected keys of a Go map (values tag along with their unique key). -/
def pairLe (p q : Bytes × Bytes) : Prop := bytesLe p.1 q.1 = true

instance : DecidableRel pairLe := fun _ _ => inferInstanceAs (Decidable (_ = true))

/-- Sort an entry list into ascending byte order of the keys. -/
def sortPairs (l : Entries) : Entries := List.insertionSort pairLe l

namespace Memorydb

/-- Error values of the memory database: `errMemorydbClosed`,
`errMemorydbNotFound` and `errSnapshotReleased` from the source. -/
inductive DbErr where
  | closed
  | notFound
  | released
deriving DecidableEq

/-- Database models memorydb.Database: `db.tbl = none` models the `nil` map
after `Close`, otherwise the map contents. -/
structure Database where
  tbl : Option Entries
deriving DecidableEq

/-- Database.New from the source. -/
def new : Database := ⟨some []⟩

/-- Database.Close sets the map to nil. -/
def close (_db : Database) : Database := ⟨none⟩

/-- Database.Has from the source: present flag plus error. -/
def has (db : Database) (k : Bytes) : Bool × Option DbErr :=
  match db.tbl with
  | none => (false, some .closed)
  | some e => ((lookupE e k).isSome, none)

/-- Database.Get from the source: returns the triple (value, exists, error)
of `Get(key) ([]byte, bool, error)`; a missing value is `none`. -/
def get (db : Database) (k : Bytes) : Option Bytes × Bool × Option DbErr :=
  match db.tbl with
  | none => (none, false, some .closed)
  | some e =>
    match lookupE e k with
    | some v => (some v, true, none)
    | none => (none, false, some .notFound)

/-- Database.Set from the source: the updated database plus error. -/
def set (db : Database) (k v : Bytes) : Database × Option DbErr :=
  match db.tbl with
  | none => (db, some .closed)
  | some e => (⟨some (setE e k v)⟩, none)

/-- Database.Delete from the source: the updated database plus error. -/
def delete (db : Database) (k : Bytes) : Database × Option DbErr :=
  match db.tbl with
  | none => (db, some .closed)
  | some e => (⟨some (delE e k)⟩, none)

/-- KVEntry models the source's `keyvalue` batch element: a key-value tuple
tagged with a deletion flag. -/
structure KVEntry where
  key : Bytes
  value : Bytes
  del : Bool
deriving DecidableEq

/-- Batch models the source's `batch`: buffered writes plus the size counter. -/
structure Batch where
  writes : List KVEntry
  size : Nat
deriving DecidableEq

/-- The empty batch returned by `NewBatch`. -/
def newBatch : Batch := ⟨[], 0⟩

/-- batch.Set appends a put to the buffer, in order. -/
def batchSet (b : Batch) (k v : Bytes) : Batch :=
  ⟨b.writes ++ [⟨k, v, false⟩], b.size + k.length + v.length⟩

/-- batch.Delete appends a keyed removal to the buffer, in order. -/
def batchDelete (b : Batch) (k : Bytes) : Batch :=
  ⟨b.writes ++ [⟨k, [], true⟩], b.size + k.length⟩

/-- One step of the `batch.Write` loop: a delete removes the key, anything
else stores the value. -/
def applyKV (e : Entries) (w : KVEntry) : Entries :=
  if w.del then delE e w.key else setE e w.key w.value

/-- The body of `batch.Write`: the buffered operations applied to the map in
buffer order. -/
def batchApply (e : Entries) (ws : List KVEntry) : Entries := ws.foldl applyKV e

/-- batch.Write flushes the buffered operations into the host database.  The
source takes the lock and replays the buffer; it is only called on an open
database (writing through a closed one is a Go map panic, outside the model). -/
def batchWrite (db : Database) (b : Batch) : Database :=
  match db.tbl with
  | none => db
  | some e => ⟨some (batchApply e b.writes)⟩

/-- Iter models the source's `iterator`: a cursor starting at index -1 over
the sorted keys and their values. -/
structure Iter where
  index : Int
  keys : List Bytes
  values : List Bytes
deriving DecidableEq

/-- Database.NewIterator from the source: collect the entries whose key has
the given prefix and is at least prefix‖start, sort them ascending, and hang
a cursor at index -1.  The source collects keys first and then reads each
key's value from the map; selecting whole entries is the same operation on a
map (keys are unique). -/
def newIterator (db : Database) (pre st : Bytes) : Iter :=
  let sel := (db.tbl.getD []).filter fun kv => hasPre pre kv.1 && bytesLe (pre ++ st) kv.1
  let sorted := sortPairs sel
  ⟨-1, sorted.map Prod.fst, sorted.map Prod.snd⟩

/-- iterator.Next from the source: returns whether a next pair exists, plus
the advanced iterator. -/
def iterNext (it : Iter) : Bool × Iter :=
  if it.index ≥ (it.keys.length : Int) then (false, it)
  else
    let it' : Iter := ⟨it.index + 1, it.keys, it.values⟩
    (decide (it'.index < (it.keys.length : Int)), it')

/-- iterator.Key from the source: nil outside the valid window. -/
def iterKey (it : Iter) : Option Bytes :=
  if it.index < 0 then none else it.keys[it.index.toNat]?

/-- iterator.Value from the source: nil outside the valid window. -/
def iterValue (it : Iter) : Option Bytes :=
  if it.index < 0 then none else it.values[it.index.toNat]?

/-- Drive the iterator with repeated `Next` calls, collecting yielded
key/value pairs, and return the exhausted iterator; fuelled recursion. -/
def runIterAux : Iter → Nat → List (Bytes × Bytes) × Iter
  | it, 0 => ([], it)
  | it, fuel + 1 =>
    let step := iterNext it
    if step.1 then
      let rest := runIterAux step.2 fuel
      (((iterKey step.2).getD [], (iterValue step.2).getD []) :: rest.1, rest.2)
    else ([], step.2)

/-- Drive a fresh iterator to exhaustion. -/
def runIter (it : Iter) : List (Bytes × Bytes) × Iter :=
  runIterAux it (it.keys.length + 1)

/-- Snap models the source's `snapshot`: a deep copy of the map taken at
creation, or `none` after `Release`. -/
structure Snap where
  tbl : Option Entries
deriving DecidableEq

/-- Database.NewSnapshot / newSnapshot from the source: copies every entry of
the current map (ranging over a nil map copies nothing). -/
def newSnapshot (db : Database) : Snap := ⟨some (db.tbl.getD [])⟩

/-- snapshot.Get from the source. -/
def snapGet (s : Snap) (k : Bytes) : Except DbErr Bytes :=
  match s.tbl with
  | none => .error .released
  | some e =>
    match lookupE e k with
    | some v => .ok v
    | none => .error .notFound

/-- snapshot.Has from the source. -/
def snapHas (s : Snap) (k : Bytes) : Bool × Option DbErr :=
  match s.tbl with
  | none => (false, some .released)
  | some e => ((lookupE e k).isSome, none)

/-- DbMut is one database mutation a client can run after taking a snapshot:
Set, Delete, or a batch Write. -/
inductive DbMut where
  | mset (k v : Bytes)
  | mdel (k : Bytes)
  | mwrite (b : Batch)
deriving DecidableEq

/-- World pairs the database with the snapshots handed out so far, so that
mutating operations and snapshot reads can be stated against one state. -/
structure World where
  db : Database
  snaps : List Snap
deriving DecidableEq

/-- Apply one mutation to the world: only the database changes. -/
def applyMut (w : World) : DbMut → World
  | .mset k v => ⟨(set w.db k v).1, w.snaps⟩
  | .mdel k => ⟨(delete w.db k).1, w.snaps⟩
  | .mwrite b => ⟨batchWrite w.db b, w.snaps⟩

/-- Apply a list of mutations in order. -/
def applyMuts (w : World) (ms : List DbMut) : World := ms.foldl applyMut w

/-- NewSnapshot at world level: the fresh snapshot is appended to the ledger. -/
def takeSnapshot (w : World) : World := ⟨w.db, w.snaps ++ [newSnapshot w.db]⟩

end Memorydb

namespace Snapshot

/-- Modelled from the spec: the KV key tag for account snapshot entries
(`ACC_PREFIX`, one byte, a compile-time constant; the exact value is an
implementation choice that must be fixed and distinct). -/
def accPre : Bytes := [0x61]

/-- Modelled from the spec: the KV key tag for storage snapshot entries
(`STO_PREFIX`). -/
def stoPre : Bytes := [0x6F]

/-- Modelled from the spec: the single well-known key holding the snapshot
root pointer. -/
def rootKey : Bytes := [0x72]

/-- Modelled from the spec: the single well-known key holding the serialized
generator state record. -/
def genKey : Bytes := [0x67]

/-- Modelled from the spec: the raw account-snapshot key
`ACC_PREFIX ‖ account_hash`. -/
def accKey (a : Bytes) : Bytes := accPre ++ a

/-- Modelled from the spec: the raw storage-snapshot key
`STO_PREFIX ‖ account_hash ‖ slot_hash`. -/
def stoKey (a s : Bytes) : Bytes := stoPre ++ a ++ s

/-- Fixed-width encoding of a `u64` field of the generator record, little
endian over 8 bytes. -/
def enc8 (n : Nat) : Bytes := (List.range 8).map fun i => n / 256 ^ i % 256

/-- Modelled from the spec: the serialized generator state record
`{done, accounts, slots, storage, marker}` (the journalGenerator the test
decodes); the marker is the final field. -/
structure JournalGen where
  done : Nat
  accounts : Nat
  slots : Nat
  storage : Nat
  marker : Bytes
deriving DecidableEq

/-- The fixed-width part of the encoded generator record. -/
def genHeader (g : JournalGen) : Bytes :=
  enc8 g.done ++ enc8 g.accounts ++ enc8 g.slots ++ enc8 g.storage

/-- Modelled from the spec: deterministic length-prefixed serialization of
the generator record; the counters are fixed width, the marker is the tail. -/
def encodeGenerator (g : JournalGen) : Bytes := genHeader g ++ g.marker

/-- Decode a `u64` field from the first 8 bytes. -/
def dec8 (b : Bytes) : Nat := (b.take 8).reverse.foldl (fun acc d => acc * 256 + d) 0

/-- Modelled from the spec: parsing of the serialized generator record. -/
def decodeGenerator (b : Bytes) : Option JournalGen :=
  if b.length < 32 then none
  else some ⟨dec8 b, dec8 (b.drop 8), dec8 (b.drop 16), dec8 (b.drop 24), b.drop 32⟩

/-- Error values of the layer read interface and the tree operations
(the spec's error taxonomy). -/
inductive SnapErr where
  | notCoveredYet
  | staleErr
  | unknownLayer
  | unknownParent
  | layerExists
  | snapshotCycle
deriving DecidableEq

/-- Modelled from the spec: the disk layer.  The advisory value cache is
omitted: the spec requires every cache entry to equal the value the KV store
would return, so reads are modelled straight from the store. -/
structure DiskLayer where
  root : Bytes
  kv : Entries
  genMarker : Option Bytes
  stale : Bool
deriving DecidableEq

/-- Modelled from the spec: the coverage predicate of the generation marker.
A payload key is covered when no marker is set or when it is at most the
marker, in bytewise order. -/
def covers : Option Bytes → Bytes → Bool
  | none, _ => true
  | some m, k => bytesLe k m

/-- Modelled from the spec: diskLayer.AccountRLP.  A stale layer errors, a
key beyond the marker errors with NotCoveredYet, otherwise the stored bytes
are returned (empty bytes for absence). -/
def diskAccountRLP (d : DiskLayer) (a : Bytes) : Except SnapErr Bytes :=
  if d.stale then .error .staleErr
  else if covers d.genMarker a then .ok ((lookupE d.kv (accKey a)).getD [])
  else .error .notCoveredYet

/-- Modelled from the spec: diskLayer.Storage; the coverage check compares
the concatenation account‖slot against the marker. -/
def diskStorage (d : DiskLayer) (a s : Bytes) : Except SnapErr Bytes :=
  if d.stale then .error .staleErr
  else if covers d.genMarker (a ++ s) then .ok ((lookupE d.kv (stoKey a s)).getD [])
  else .error .notCoveredYet

/-- Raw KV account-snapshot read, modelling rawdb.ReadAccountSnapshot
(returns nil, here empty bytes, when the key is absent). -/
def rawReadAccount (e : Entries) (a : Bytes) : Bytes := (lookupE e (accKey a)).getD []

/-- Raw KV storage-snapshot read, modelling rawdb.ReadStorageSnapshot. -/
def rawReadStorage (e : Entries) (a s : Bytes) : Bytes := (lookupE e (stoKey a s)).getD []

/-- Modelled from the spec: the payload of a diff layer (destructSet,
accountData, storageData), as association lists with unique keys. -/
structure DiffData where
  destructs : List Bytes
  accounts : List (Bytes × Bytes)
  storage : List (Bytes × List (Bytes × Bytes))
deriving DecidableEq

/-- A diff layer installed in the tree: its root, its parent root and its
payload. -/
structure DiffEntry where
  root : Bytes
  parent : Bytes
  data : DiffData
deriving DecidableEq

/-- A single account or slot write of the flattening loop: an empty value is
a delete, anything else a put. -/
def mkOp (k v : Bytes) : KOp := if v = [] then .delOp k else .setOp k v

/-- The storage-deletion sweep of a destructed account: every KV entry
whose key carries the account's storage tag and whose payload is covered by
the marker is deleted. -/
def slotDelOps (e : Entries) (m : Option Bytes) (a : Bytes) : List KOp :=
  e.filterMap fun kv =>
    if hasPre (stoPre ++ a) kv.1 && covers m (kv.1.drop 1) then
      some (KOp.delOp kv.1)
    else none

/-- Modelled from the spec: destructions are applied first; each covered
destructed account's snapshot key is deleted and its storage keys found in
the KV store whose payload is covered are deleted. -/
def destructOps (e : Entries) (m : Option Bytes) (ds : List Bytes) : List KOp :=
  ds.flatMap fun a =>
    (if covers m a then [KOp.delOp (accKey a)] else []) ++ slotDelOps e m a

/-- Modelled from the spec: account writes of the flattening loop; a
mutation beyond the marker is dropped, an empty value is a delete. -/
def accountOps (m : Option Bytes) (accs : List (Bytes × Bytes)) : List KOp :=
  accs.flatMap fun av => if covers m av.1 then [mkOp (accKey av.1) av.2] else []

/-- The storage writes of one account of the diff: coverage is checked on
account‖slot, an empty value is a delete. -/
def accSlotOps (m : Option Bytes) (a : Bytes) (slots : List (Bytes × Bytes)) : List KOp :=
  slots.flatMap fun sv =>
    if covers m (a ++ sv.1) then [mkOp (stoKey a sv.1) sv.2] else []

/-- Modelled from the spec: storage writes of the flattening loop, account
by account. -/
def storageOps (m : Option Bytes) (stor : List (Bytes × List (Bytes × Bytes))) : List KOp :=
  stor.flatMap fun asl => accSlotOps m asl.1 asl.2

/-- Modelled from the spec: the generator record the flattening step
persists; its marker field is the disk layer's current marker (empty when
generation has finished). -/
def genRecord (m : Option Bytes) : JournalGen :=
  ⟨if m = none then 1 else 0, 0, 0, 0, m.getD []⟩

/-- Modelled from the spec: the flattening step also persists the disk-layer
root pointer and the generator state record. -/
def metaOps (root : Bytes) (m : Option Bytes) : List KOp :=
  [.setOp rootKey root, .setOp genKey (encodeGenerator (genRecord m))]

/-- The full, ordered operation list of one flattening step: destructions,
then account writes, then storage writes, then the metadata records. -/
def diffOps (d : DiskLayer) (de : DiffEntry) : List KOp :=
  destructOps d.kv d.genMarker de.data.destructs ++
    accountOps d.genMarker de.data.accounts ++
    storageOps d.genMarker de.data.storage ++
    metaOps de.root d.genMarker

/-- Modelled from the spec: flatten one diff onto the disk layer, producing
the replacement disk layer rooted at the diff's root; the generation marker
is preserved.  (The superseded disk layer value is simply no longer
referenced by the tree; its stale flag matters only through reads on a
retained reference.) -/
def diffToDisk (d : DiskLayer) (de : DiffEntry) : DiskLayer :=
  ⟨de.root, applyKOps d.kv (diffOps d de), d.genMarker, false⟩

/-- Modelled from the spec: the snapshot tree, a single disk layer plus the
installed diff layers. -/
structure Tree where
  disk : DiskLayer
  diffs : List DiffEntry
deriving DecidableEq

/-- Does a root name a layer of the tree? -/
def hasRoot (t : Tree) (r : Bytes) : Bool :=
  r = t.disk.root || t.diffs.any fun de => de.root = r

/-- Modelled from the spec: Tree.Update installs a new diff layer after the
cycle, unknown-parent and duplicate-root checks; on error the tree is
unchanged. -/
def update (t : Tree) (newRoot parentRoot : Bytes) (dd : DiffData) : Except SnapErr Tree :=
  if newRoot = parentRoot then .error .snapshotCycle
  else if ¬ hasRoot t parentRoot then .error .unknownParent
  else if hasRoot t newRoot then .error .layerExists
  else .ok ⟨t.disk, t.diffs ++ [⟨newRoot, parentRoot, dd⟩]⟩

/-- Find the diff entry installed for a root. -/
def findEntry (l : List DiffEntry) (r : Bytes) : Option DiffEntry :=
  l.find? fun de => de.root = r

/-- Walk from a root down to the disk layer, collecting the diff entries on
the chain (queried root first); fuelled recursion, one step per layer. -/
def chainTo (t : Tree) : Nat → Bytes → Option (List DiffEntry)
  | 0, _ => none
  | fuel + 1, r =>
    if r = t.disk.root then some []
    else
      match findEntry t.diffs r with
      | none => none
      | some de => (chainTo t fuel de.parent).map (de :: ·)

/-- Modelled from the spec: Tree.Cap with retention zero flattens the whole
chain below the named root into the disk layer, oldest diff first, and prunes
every other layer from the tree. -/
def capAll (t : Tree) (r : Bytes) : Except SnapErr Tree :=
  match chainTo t (t.diffs.length + 1) r with
  | none => .error .unknownLayer
  | some ds => .ok ⟨ds.reverse.foldl diffToDisk t.disk, []⟩

/-- A layer handed out by Tree.Snapshot: the disk layer or a diff layer. -/
inductive Layer where
  | disk (d : DiskLayer)
  | diffL (de : DiffEntry)
deriving DecidableEq

/-- Modelled from the spec: Tree.Snapshot resolves a root to its layer, nil
for an unknown root. -/
def snapshotL (t : Tree) (r : Bytes) : Option Layer :=
  if r = t.disk.root then some (.disk t.disk)
  else (findEntry t.diffs r).map .diffL

/-- Modelled from the spec: the disk-layer account iterator over a KV state
captured at construction.  It scans full keys in ascending order starting at
`ACC_PREFIX ‖ seek` and enforces the prefix boundary explicitly, stopping at
the first key that does not carry the account prefix; each yielded pair is
the 32-byte hash (key minus prefix) and the stored bytes. -/
def diskAccountIterator (e : Entries) (seek : Bytes) : List (Bytes × Bytes) :=
  ((sortPairs (e.filter fun kv => bytesLe (accPre ++ seek) kv.1)).takeWhile
    fun kv => hasPre accPre kv.1).map fun kv => (kv.1.drop 1, kv.2)

end Snapshot

namespace Memorydb

/-- Convert a buffered batch element to the generic keyed operation. -/
def kvToOp (w : KVEntry) : KOp := if w.del then .delOp w.key else .setOp w.key w.value

/-- The last buffered operation on a key, if any. -/
def lastKV (q : Bytes) : List KVEntry → Option KVEntry
  | [] => none
  | w :: rest => (lastKV q rest).or (if w.key = q then some w else none)

end Memorydb

namespace Snapshot

/-- A 32-byte hash whose first byte is x, like the test's types.Hash values. -/
def wh (x : Nat) : Bytes := x :: List.replicate 31 0

/-- Concrete partially generated disk layer for exercising the marker reads. -/
def c3d : DiskLayer := ⟨wh 0xF0, [(accKey (wh 3), [3])], some (wh 4), false⟩

end Snapshot

deriving instance DecidableEq for Except

namespace Snapshot

/-- Concrete fully generated disk layer for the merge scenario. -/
def c1d : DiskLayer :=
  ⟨wh 0xF0,
    [(accKey (wh 1), [1]), (accKey (wh 3), [3]), (accKey (wh 5), [5]),
      (stoKey (wh 5) (wh 0x50), [0x50]), (accKey (wh 7), [7]),
      (stoKey (wh 7) (wh 0x70), [0x70])], none, false⟩

/-- Concrete diff payload: destruct 0x05, rewrite 0x03, rewrite slot (7,70). -/
def c1dd : DiffData := ⟨[wh 5], [(wh 3, [3, 3])], [(wh 7, [(wh 0x70, [0x71])])]⟩

/-- Root of the concrete diff layer. -/
def c1root : Bytes := wh 0xF1

/-- The tree after the concrete Update. -/
def c1t1 : Tree := ⟨c1d, [⟨c1root, c1d.root, c1dd⟩]⟩

/-- The tree after the concrete Cap. -/
def c1t2 : Tree := ⟨diffToDisk c1d ⟨c1root, c1d.root, c1dd⟩, []⟩

/-- Concrete partially generated disk layer (marker wh 4) for the partial
merge scenario. -/
def c2m : Bytes := wh 4

/-- Disk layer seeded only below the marker. -/
def c2d : DiskLayer :=
  ⟨wh 0xF0,
    [(accKey (wh 1), [1]), (accKey (wh 3), [3]), (stoKey (wh 3) (wh 0x30), [0x30])],
    some c2m, false⟩

/-- Diff payload with mutations on both sides of the marker. -/
def c2dd : DiffData :=
  ⟨[wh 1], [(wh 3, [3, 3]), (wh 5, [5, 5])],
    [(wh 3, [(wh 0x30, [0x31])]), (wh 6, [(wh 0x60, [0x61])])]⟩

/-- Root of the concrete partial-merge diff. -/
def c2root : Bytes := wh 0xF1

/-- Tree after the partial-merge Update. -/
def c2t1 : Tree := ⟨c2d, [⟨c2root, c2d.root, c2dd⟩]⟩

/-- Tree after the partial-merge Cap. -/
def c2t2 : Tree := ⟨diffToDisk c2d ⟨c2root, c2d.root, c2dd⟩, []⟩

/-- Concrete under-construction disk layer for generator persistence. -/
def c4d : DiskLayer := ⟨wh 0xF0, [(accKey (wh 1), [1])], some (wh 9), false⟩

/-- First diff payload of the generator scenario. -/
def c4dd1 : DiffData := ⟨[], [(wh 2, [2])], []⟩

/-- Second diff payload of the generator scenario. -/
def c4dd2 : DiffData := ⟨[], [(wh 3, [3])], []⟩

/-- The two diff roots of the generator scenario. -/
def c4r1 : Bytes := wh 0xA1

/-- Root of the second diff of the generator scenario. -/
def c4r2 : Bytes := wh 0xA2

/-- Tree after the first Update. -/
def c4t1 : Tree := ⟨c4d, [⟨c4r1, c4d.root, c4dd1⟩]⟩

/-- Tree after the first Cap. -/
def c4t2 : Tree := ⟨diffToDisk c4d ⟨c4r1, c4d.root, c4dd1⟩, []⟩

/-- The disk layer after construction finished (marker cleared). -/
def c4d2 : DiskLayer := ⟨c4t2.disk.root, c4t2.disk.kv, none, false⟩

/-- Tree after the second Update. -/
def c4t3 : Tree := ⟨c4d2, [⟨c4r2, c4d2.root, c4dd2⟩]⟩

/-- Tree after the second Cap. -/
def c4t4 : Tree := ⟨diffToDisk c4d2 ⟨c4r2, c4d2.root, c4dd2⟩, []⟩

/-- Concrete disk layer for the cap-to-zero scenario. -/
def c5d : DiskLayer := ⟨wh 0xF0, [(accKey (wh 1), [1])], none, false⟩

/-- Roots of the two stacked diffs. -/
def c5r1 : Bytes := wh 0xA1

/-- Root of the second stacked diff. -/
def c5r2 : Bytes := wh 0xA2

/-- First stacked diff. -/
def c5de1 : DiffEntry := ⟨c5r1, c5d.root, ⟨[], [(wh 2, [2])], []⟩⟩

/-- Second stacked diff, child of the first. -/
def c5de2 : DiffEntry := ⟨c5r2, c5r1, ⟨[], [(wh 3, [3])], []⟩⟩

/-- The two-diff tree before Cap. -/
def c5t : Tree := ⟨c5d, [c5de1, c5de2]⟩

/-- The flattened tree after Cap. -/
def c5tf : Tree := ⟨diffToDisk (diffToDisk c5d c5de1) c5de2, []⟩

/-- Concrete disk entries for the seek scenario: two account keys and one
key with a higher prefix. -/
def c6e : Entries := [(accKey (wh 2), [2]), (accKey (wh 4), [4]), ([0x62, 1], [255, 255])]

end Snapshot

namespace Memorydb

/-- Concrete open database for the iterator scenario. -/
def c7db : Database := ⟨some [([1, 2], [5]), ([2, 2], [7]), ([1, 3], [6])]⟩

/-- Concrete open database for the missing-key read. -/
def c9db : Database := ⟨some [([1], [2])]⟩

/-- Concrete batch touching key [1] three times and key [2] once. -/
def c10b : Batch :=
  ⟨[⟨[1], [11], false⟩, ⟨[2], [12], false⟩, ⟨[1], [], true⟩, ⟨[1], [13], false⟩], 0⟩

/-- Concrete open database for the batch write. -/
def c10db : Database := ⟨some [([1], [10])]⟩

end Memorydb

theorem bytesLe_refl (a : Bytes) : bytesLe a a = true := by
  induction a with
  | nil => rfl
  | cons x xs ih => simp [bytesLe, ih]

theorem bytesLe_total (a b : Bytes) : bytesLe a b = true ∨ bytesLe b a = true := by
  induction a generalizing b with
  | nil => left; rfl
  | cons x xs ih =>
    cases b with
    | nil => right; rfl
    | cons y ys =>
      rcases Nat.lt_trichotomy x y with h | h | h
      · left; simp [bytesLe, h]
      · subst h
        rcases ih ys with h' | h'
        · left; simp [bytesLe, h']
        · right; simp [bytesLe, h']
      · right; simp [bytesLe, h]

theorem bytesLe_trans {a b c : Bytes} (hab : bytesLe a b = true)
    (hbc : bytesLe b c = true) : bytesLe a c = true := by
  induction a generalizing b c with
  | nil => rfl
  | cons x xs ih =>
    cases b with
    | nil => simp [bytesLe] at hab
    | cons y ys =>
      cases c with
      | nil => simp [bytesLe] at hbc
      | cons z zs =>
        simp only [bytesLe] at hab hbc ⊢
        split at hab
        · rename_i hxy
          split at hbc
          · rename_i hyz; simp [Nat.lt_trans hxy hyz]
          · split at hbc
            · exact absurd hbc (by simp)
            · rename_i h1 h2
              have hyz : y = z := Nat.le_antisymm (Nat.le_of_not_lt h2) (Nat.le_of_not_lt h1)
              subst hyz; simp [hxy]
        · split at hab
          · exact absurd hab (by simp)
          · rename_i h1 h2
            have hxy : x = y := Nat.le_antisymm (Nat.le_of_not_lt h2) (Nat.le_of_not_lt h1)
            subst hxy
            split at hbc
            · rename_i hxz; simp [hxz]
            · split at hbc
              · exact absurd hbc (by simp)
              · rename_i h3 h4
                have hxz : x = z := Nat.le_antisymm (Nat.le_of_not_lt h4) (Nat.le_of_not_lt h3)
                subst hxz; simp [ih hab hbc]

theorem bytesLe_antisymm {a b : Bytes} (hab : bytesLe a b = true)
    (hba : bytesLe b a = true) : a = b := by
  induction a generalizing b with
  | nil =>
    cases b with
    | nil => rfl
    | cons y ys => simp [bytesLe] at hba
  | cons x xs ih =>
    cases b with
    | nil => simp [bytesLe] at hab
    | cons y ys =>
      simp only [bytesLe] at hab hba
      rcases Nat.lt_trichotomy x y with h | h | h
      · simp [h, Nat.not_lt_of_lt h, Nat.lt_irrefl] at hba
      · subst h
        simp only [Nat.lt_irrefl, if_false] at hab hba
        exact congrArg (x :: ·) (ih hab hba)
      · simp [h, Nat.not_lt_of_lt h, Nat.lt_irrefl] at hab

theorem bytesLt_iff (a b : Bytes) :
    bytesLt a b = true ↔ (bytesLe a b = true ∧ a ≠ b) := by
  induction a generalizing b with
  | nil =>
    cases b with
    | nil => simp [bytesLt, bytesLe]
    | cons y ys =>
      simp only [bytesLt, bytesLe, true_iff, true_and, ne_eq]
      exact fun h => List.noConfusion h
  | cons x xs ih =>
    cases b with
    | nil => simp [bytesLt, bytesLe]
    | cons y ys =>
      simp only [bytesLt, bytesLe]
      split
      · rename_i h
        simp only [true_iff, true_and, ne_eq]
        intro hc
        injection hc with h1 h2
        exact absurd h1 (Nat.ne_of_lt h)
      · split
        · simp
        · rename_i h1 h2
          have hxy : x = y := Nat.le_antisymm (Nat.le_of_not_lt h2) (Nat.le_of_not_lt h1)
          subst hxy
          rw [ih]
          constructor
          · rintro ⟨h3, h4⟩
            exact ⟨h3, by intro hc; injection hc with _ hc'; exact h4 hc'⟩
          · rintro ⟨h3, h4⟩
            exact ⟨h3, by intro hc; exact h4 (by rw [hc])⟩

theorem bytesLe_cons_same (x : Nat) (a b : Bytes) :
    bytesLe (x :: a) (x :: b) = bytesLe a b := by
  simp [bytesLe]

theorem bytesLe_append_same (p a b : Bytes) :
    bytesLe (p ++ a) (p ++ b) = bytesLe a b := by
  induction p with
  | nil => rfl
  | cons x xs ih =>
    show bytesLe (x :: (xs ++ a)) (x :: (xs ++ b)) = _
    rw [bytesLe_cons_same, ih]

theorem lookupE_setE (e : Entries) (k v q : Bytes) :
    lookupE (setE e k v) q = if k = q then some v else lookupE e q := by
  induction e with
  | nil => simp [setE, lookupE]
  | cons p r ih =>
    obtain ⟨k', v'⟩ := p
    by_cases h : k' = k
    · subst h
      simp only [setE, if_pos rfl, lookupE]
      by_cases hq : k' = q <;> simp [hq]
    · simp only [setE, if_neg h, lookupE, ih]
      by_cases hq : k' = q
      · subst hq
        have hkq : k ≠ k' := fun hc => h hc.symm
        simp [hkq]
      · simp [hq]

theorem lookupE_delE (e : Entries) (k q : Bytes) :
    lookupE (delE e k) q = if k = q then none else lookupE e q := by
  induction e with
  | nil => simp [delE, lookupE]
  | cons p r ih =>
    obtain ⟨k', v'⟩ := p
    by_cases h : k' = k
    · subst h
      by_cases hq : k' = q
      · subst hq
        simp [delE, ih]
      · simp [delE, lookupE, ih, hq]
    · simp only [delE, if_neg h, lookupE, ih]
      by_cases hq : k' = q
      · subst hq
        have hkq : k ≠ k' := fun hc => h hc.symm
        simp [hkq]
      · simp [hq]

theorem lookupE_eq_some_of_mem {e : Entries} {k v : Bytes}
    (hnd : (keysOf e).Nodup) (hm : (k, v) ∈ e) : lookupE e k = some v := by
  induction e with
  | nil => cases hm
  | cons p r ih =>
    obtain ⟨k', v'⟩ := p
    simp only [keysOf, List.map_cons, List.nodup_cons] at hnd
    rcases List.mem_cons.mp hm with h | h
    · injection h with h1 h2
      subst h1; subst h2
      simp [lookupE]
    · have hk : k' ≠ k := by
        intro hc; subst hc
        exact hnd.1 (by simpa [keysOf] using List.mem_map_of_mem Prod.fst h)
      simp [lookupE, hk, ih hnd.2 h]

theorem mem_of_lookupE_eq_some {e : Entries} {k v : Bytes}
    (h : lookupE e k = some v) : (k, v) ∈ e := by
  induction e with
  | nil => simp [lookupE] at h
  | cons p r ih =>
    obtain ⟨k', v'⟩ := p
    simp only [lookupE] at h
    split at h
    · rename_i hk
      subst hk
      injection h with h
      subst h
      exact List.mem_cons_self _ _
    · exact List.mem_cons_of_mem _ (ih h)

theorem lastOpOn_append (q : Bytes) (l₁ l₂ : List KOp) :
    lastOpOn q (l₁ ++ l₂) = (lastOpOn q l₂).or (lastOpOn q l₁) := by
  induction l₁ with
  | nil => simp [lastOpOn]
  | cons op rest ih =>
    simp only [List.cons_append, lastOpOn, List.append_eq, ih, Option.or_assoc]

/-- The fundamental characterisation: looking up a key after applying a list
of operations sees the last operation on that key, or the original table. -/
theorem lookupE_applyKOps (e : Entries) (ops : List KOp) (q : Bytes) :
    lookupE (applyKOps e ops) q =
      match lastOpOn q ops with
      | some (.setOp _ v) => some v
      | some (.delOp _) => none
      | none => lookupE e q := by
  induction ops generalizing e with
  | nil => rfl
  | cons op rest ih =>
    show lookupE (applyKOps (applyKOp e op) rest) q = _
    rw [ih]
    simp only [lastOpOn]
    cases h : lastOpOn q rest with
    | some o => cases o <;> simp
    | none =>
      simp only [Option.none_or]
      by_cases hk : op.key = q
      · cases op with
        | setOp k v =>
          simp only [KOp.key] at hk
          subst hk
          simp [applyKOp, lookupE_setE, KOp.key]
        | delOp k =>
          simp only [KOp.key] at hk
          subst hk
          simp [applyKOp, lookupE_delE, KOp.key]
      · cases op with
        | setOp k v =>
          simp only [KOp.key] at hk
          simp [applyKOp, lookupE_setE, KOp.key, hk]
        | delOp k =>
          simp only [KOp.key] at hk
          simp [applyKOp, lookupE_delE, KOp.key, hk]

theorem lastOpOn_flatMap_none {α : Type} (q : Bytes) (l : List α) (f : α → List KOp)
    (h : ∀ x ∈ l, lastOpOn q (f x) = none) :
    lastOpOn q (l.flatMap f) = none := by
  induction l with
  | nil => rfl
  | cons x rest ih =>
    rw [List.flatMap_cons, lastOpOn_append,
      ih (fun y hy => h y (List.mem_cons_of_mem _ hy)), h x (List.mem_cons_self _ _)]
    rfl

theorem hasPre_append (p s : Bytes) : hasPre p (p ++ s) = true := by
  induction p with
  | nil => rfl
  | cons x xs ih => simp [hasPre, ih]

theorem hasPre_iff (p k : Bytes) : hasPre p k = true ↔ ∃ s, k = p ++ s := by
  induction p generalizing k with
  | nil => simp [hasPre]
  | cons x xs ih =>
    cases k with
    | nil =>
      simp only [hasPre, List.cons_append]
      constructor
      · intro h; cases h
      · rintro ⟨s, hs⟩; cases hs
    | cons y ys =>
      simp only [hasPre]
      by_cases hxy : x = y
      · subst hxy
        rw [if_pos rfl, ih]
        constructor
        · rintro ⟨s, hs⟩; exact ⟨s, by simp [hs]⟩
        · rintro ⟨s, hs⟩
          injection hs with _ h2
          exact ⟨s, h2⟩
      · rw [if_neg hxy]
        constructor
        · intro h; cases h
        · rintro ⟨s, hs⟩
          injection hs with h1 _
          exact absurd h1.symm hxy

instance : IsTotal (Bytes × Bytes) pairLe := ⟨fun p q => bytesLe_total p.1 q.1⟩

instance : IsTrans (Bytes × Bytes) pairLe := ⟨fun _ _ _ => bytesLe_trans⟩

theorem sortPairs_sorted (l : Entries) : List.Sorted pairLe (sortPairs l) :=
  List.sorted_insertionSort pairLe l

theorem sortPairs_perm (l : Entries) : (sortPairs l).Perm l :=
  List.perm_insertionSort pairLe l

theorem mem_sortPairs (l : Entries) (p : Bytes × Bytes) :
    p ∈ sortPairs l ↔ p ∈ l :=
  (sortPairs_perm l).mem_iff

namespace Snapshot

theorem enc8_length (n : Nat) : (enc8 n).length = 8 := by
  simp [enc8]

theorem genHeader_length (g : JournalGen) : (genHeader g).length = 32 := by
  simp [genHeader, enc8]

theorem decodeGenerator_encodeGenerator_marker (g : JournalGen) :
    ∃ r, decodeGenerator (encodeGenerator g) = some r ∧ r.marker = g.marker := by
  have hlen : (encodeGenerator g).length = 32 + g.marker.length := by
    simp [encodeGenerator, genHeader_length]
  have hdrop : (encodeGenerator g).drop 32 = g.marker := by
    have := List.drop_left (genHeader g) g.marker
    rwa [genHeader_length g] at this
  rw [decodeGenerator, if_neg (by omega)]
  exact ⟨_, rfl, by simpa using hdrop⟩

end Snapshot

theorem lastOpOn_single (q : Bytes) (op : KOp) :
    lastOpOn q [op] = if op.key = q then some op else none := by
  simp [lastOpOn]

theorem lastOpOn_eq_none_of_forall {q : Bytes} {ops : List KOp}
    (h : ∀ op ∈ ops, op.key ≠ q) : lastOpOn q ops = none := by
  induction ops with
  | nil => rfl
  | cons op rest ih =>
    rw [lastOpOn, ih (fun o ho => h o (List.mem_cons_of_mem _ ho)),
      if_neg (h op (List.mem_cons_self _ _)), Option.none_or]

theorem lastOpOn_delOp_of {q : Bytes} {ops : List KOp}
    (hex : ∃ op ∈ ops, op.key = q)
    (hdel : ∀ op ∈ ops, op.key = q → op = .delOp q) :
    lastOpOn q ops = some (.delOp q) := by
  induction ops with
  | nil => obtain ⟨op, hm, _⟩ := hex; cases hm
  | cons op rest ih =>
    rw [lastOpOn]
    by_cases hr : ∃ o ∈ rest, o.key = q
    · rw [ih hr (fun o ho hk => hdel o (List.mem_cons_of_mem _ ho) hk), Option.or_some]
    · have hrn : lastOpOn q rest = none :=
        lastOpOn_eq_none_of_forall (fun o ho hk => hr ⟨o, ho, hk⟩)
      rw [hrn, Option.none_or]
      obtain ⟨o, hm, hk⟩ := hex
      rcases List.mem_cons.mp hm with h | h
      · subst h
        rw [if_pos hk]
        rw [hdel o (List.mem_cons_self _ _) hk]
      · exact absurd ⟨o, h, hk⟩ hr

namespace Snapshot

theorem accKey_def (a : Bytes) : accKey a = 0x61 :: a := rfl

theorem stoKey_def (a s : Bytes) : stoKey a s = 0x6F :: (a ++ s) := by
  simp [stoKey, stoPre]

theorem accKey_inj {a b : Bytes} (h : accKey a = accKey b) : a = b := by
  rw [accKey_def, accKey_def] at h
  injection h

theorem stoKey_ne_accKey (a s b : Bytes) : stoKey a s ≠ accKey b := by
  rw [stoKey_def, accKey_def]
  intro h
  injection h with h1 _
  exact absurd h1 (by decide)

theorem rootKey_ne_accKey (b : Bytes) : rootKey ≠ accKey b := by
  rw [accKey_def]
  intro h
  injection h with h1 _
  exact absurd h1 (by decide)

theorem genKey_ne_accKey (b : Bytes) : genKey ≠ accKey b := by
  rw [accKey_def]
  intro h
  injection h with h1 _
  exact absurd h1 (by decide)

theorem rootKey_ne_stoKey (b s : Bytes) : rootKey ≠ stoKey b s := by
  rw [stoKey_def]
  intro h
  injection h with h1 _
  exact absurd h1 (by decide)

theorem genKey_ne_stoKey (b s : Bytes) : genKey ≠ stoKey b s := by
  rw [stoKey_def]
  intro h
  injection h with h1 _
  exact absurd h1 (by decide)

theorem stoKey_inj {a s a' s' : Bytes} (hlen : a.length = a'.length)
    (h : stoKey a s = stoKey a' s') : a = a' ∧ s = s' := by
  rw [stoKey_def, stoKey_def] at h
  injection h with _ h2
  exact List.append_inj h2 hlen

theorem mkOp_key (k v : Bytes) : (mkOp k v).key = k := by
  by_cases h : v = [] <;> simp [mkOp, h, KOp.key]

theorem mem_accountOps {m : Option Bytes} {accs : List (Bytes × Bytes)} {op : KOp} :
    op ∈ accountOps m accs ↔
      ∃ av ∈ accs, covers m av.1 = true ∧ op = mkOp (accKey av.1) av.2 := by
  simp only [accountOps, List.mem_flatMap]
  constructor
  · rintro ⟨av, hav, hop⟩
    by_cases hc : covers m av.1 = true
    · rw [if_pos hc] at hop
      exact ⟨av, hav, hc, by simpa using hop⟩
    · rw [if_neg hc] at hop
      cases hop
  · rintro ⟨av, hav, hc, rfl⟩
    exact ⟨av, hav, by rw [if_pos hc]; exact List.mem_singleton.mpr rfl⟩

theorem mem_accSlotOps {m : Option Bytes} {a : Bytes} {slots : List (Bytes × Bytes)} {op : KOp} :
    op ∈ accSlotOps m a slots ↔
      ∃ sv ∈ slots, covers m (a ++ sv.1) = true ∧ op = mkOp (stoKey a sv.1) sv.2 := by
  simp only [accSlotOps, List.mem_flatMap]
  constructor
  · rintro ⟨sv, hsv, hop⟩
    by_cases hc : covers m (a ++ sv.1) = true
    · rw [if_pos hc] at hop
      exact ⟨sv, hsv, hc, by simpa using hop⟩
    · rw [if_neg hc] at hop
      cases hop
  · rintro ⟨sv, hsv, hc, rfl⟩
    exact ⟨sv, hsv, by rw [if_pos hc]; exact List.mem_singleton.mpr rfl⟩

theorem mem_storageOps {m : Option Bytes} {stor : List (Bytes × List (Bytes × Bytes))}
    {op : KOp} :
    op ∈ storageOps m stor ↔ ∃ asl ∈ stor, op ∈ accSlotOps m asl.1 asl.2 := by
  simp only [storageOps, List.mem_flatMap]

theorem mem_slotDelOps {e : Entries} {m : Option Bytes} {a : Bytes} {op : KOp} :
    op ∈ slotDelOps e m a ↔
      ∃ kv ∈ e, (hasPre (stoPre ++ a) kv.1 && covers m (kv.1.drop 1)) = true ∧
        op = KOp.delOp kv.1 := by
  simp only [slotDelOps, List.mem_filterMap]
  constructor
  · rintro ⟨kv, hkv, hop⟩
    by_cases hc : (hasPre (stoPre ++ a) kv.1 && covers m (kv.1.drop 1)) = true
    · rw [if_pos hc] at hop
      injection hop with hop
      exact ⟨kv, hkv, hc, hop.symm⟩
    · rw [if_neg hc] at hop
      cases hop
  · rintro ⟨kv, hkv, hc, rfl⟩
    exact ⟨kv, hkv, by rw [if_pos hc]⟩

theorem mem_destructOps {e : Entries} {m : Option Bytes} {ds : List Bytes} {op : KOp} :
    op ∈ destructOps e m ds ↔
      ∃ a ∈ ds, (covers m a = true ∧ op = KOp.delOp (accKey a)) ∨ op ∈ slotDelOps e m a := by
  simp only [destructOps, List.mem_flatMap, List.mem_append]
  refine exists_congr fun a => and_congr_right fun _ => or_congr ?_ Iff.rfl
  constructor
  · intro hop
    by_cases hc : covers m a = true
    · rw [if_pos hc] at hop
      exact ⟨hc, by simpa using hop⟩
    · rw [if_neg hc] at hop
      cases hop
  · rintro ⟨hc, rfl⟩
    rw [if_pos hc]
    exact List.mem_singleton.mpr rfl

theorem destructOps_all_delOp {e : Entries} {m : Option Bytes} {ds : List Bytes} {op : KOp}
    (h : op ∈ destructOps e m ds) : ∃ k, op = KOp.delOp k := by
  rcases mem_destructOps.mp h with ⟨a, _, ⟨_, rfl⟩ | hslot⟩
  · exact ⟨_, rfl⟩
  · rcases mem_slotDelOps.mp hslot with ⟨kv, _, _, rfl⟩
    exact ⟨_, rfl⟩

theorem lastOpOn_accountOps_none {m : Option Bytes} {accs : List (Bytes × Bytes)} {q : Bytes}
    (h : ∀ av ∈ accs, accKey av.1 ≠ q) :
    lastOpOn q (accountOps m accs) = none := by
  apply lastOpOn_eq_none_of_forall
  intro op hop
  rcases mem_accountOps.mp hop with ⟨av, hav, _, rfl⟩
  rw [mkOp_key]
  exact h av hav

theorem lastOpOn_accSlotOps_none {m : Option Bytes} {a : Bytes} {slots : List (Bytes × Bytes)}
    {q : Bytes} (h : ∀ sv ∈ slots, stoKey a sv.1 ≠ q) :
    lastOpOn q (accSlotOps m a slots) = none := by
  apply lastOpOn_eq_none_of_forall
  intro op hop
  rcases mem_accSlotOps.mp hop with ⟨sv, hsv, _, rfl⟩
  rw [mkOp_key]
  exact h sv hsv

theorem lastOpOn_storageOps_none {m : Option Bytes} {stor : List (Bytes × List (Bytes × Bytes))}
    {q : Bytes} (h : ∀ asl ∈ stor, ∀ sv ∈ asl.2, stoKey asl.1 sv.1 ≠ q) :
    lastOpOn q (storageOps m stor) = none := by
  apply lastOpOn_eq_none_of_forall
  intro op hop
  rcases mem_storageOps.mp hop with ⟨asl, hasl, hin⟩
  rcases mem_accSlotOps.mp hin with ⟨sv, hsv, _, rfl⟩
  rw [mkOp_key]
  exact h asl hasl sv hsv

theorem lastOpOn_destructOps_none {e : Entries} {m : Option Bytes} {ds : List Bytes} {q : Bytes}
    (hacc : ∀ a ∈ ds, accKey a ≠ q)
    (hslot : ∀ kv ∈ e, ∀ a ∈ ds, hasPre (stoPre ++ a) kv.1 = true → kv.1 ≠ q) :
    lastOpOn q (destructOps e m ds) = none := by
  apply lastOpOn_eq_none_of_forall
  intro op hop
  rcases mem_destructOps.mp hop with ⟨a, ha, ⟨_, rfl⟩ | hin⟩
  · exact hacc a ha
  · rcases mem_slotDelOps.mp hin with ⟨kv, hkv, hc, rfl⟩
    exact hslot kv hkv a ha (Bool.and_elim_left hc)

theorem lastOpOn_metaOps_of_ne {root : Bytes} {m : Option Bytes} {q : Bytes}
    (h1 : rootKey ≠ q) (h2 : genKey ≠ q) :
    lastOpOn q (metaOps root m) = none := by
  apply lastOpOn_eq_none_of_forall
  intro op hop
  rcases List.mem_cons.mp hop with rfl | hop
  · exact h1
  · rcases List.mem_cons.mp hop with rfl | hop
    · exact h2
    · cases hop

theorem accountOps_cons (m : Option Bytes) (bw : Bytes × Bytes) (rest : List (Bytes × Bytes)) :
    accountOps m (bw :: rest) =
      (if covers m bw.1 then [mkOp (accKey bw.1) bw.2] else []) ++ accountOps m rest := by
  simp [accountOps]

theorem lastOpOn_accountOps {m : Option Bytes} {accs : List (Bytes × Bytes)} {a v : Bytes}
    (hnd : (accs.map Prod.fst).Nodup) (hm : (a, v) ∈ accs) :
    lastOpOn (accKey a) (accountOps m accs) =
      if covers m a then some (mkOp (accKey a) v) else none := by
  induction accs with
  | nil => cases hm
  | cons bw rest ih =>
    obtain ⟨b, w⟩ := bw
    simp only [List.map_cons, List.nodup_cons] at hnd
    rw [accountOps_cons, lastOpOn_append]
    rcases List.mem_cons.mp hm with h | h
    · injection h with h1 h2
      subst h1; subst h2
      have hrest : lastOpOn (accKey a) (accountOps m rest) = none := by
        apply lastOpOn_accountOps_none
        intro av hav hc
        exact hnd.1 (accKey_inj hc ▸ List.mem_map_of_mem Prod.fst hav)
      rw [hrest, Option.none_or]
      by_cases hc : covers m a = true
      · rw [if_pos hc, if_pos hc, lastOpOn_single, mkOp_key, if_pos rfl]
      · rw [if_neg hc, if_neg hc]
        rfl
    · have hba : accKey b ≠ accKey a := by
        intro hc
        have hb : b = a := accKey_inj hc
        subst hb
        exact hnd.1 (List.mem_map_of_mem Prod.fst h)
      have hhead : lastOpOn (accKey a)
          (if covers m b then [mkOp (accKey b) w] else []) = none := by
        by_cases hc : covers m b = true
        · rw [if_pos hc, lastOpOn_single, mkOp_key, if_neg hba]
        · rw [if_neg hc]
          rfl
      rw [ih hnd.2 h, hhead]
      by_cases hc : covers m a = true
      · rw [if_pos hc, Option.or_none]
      · rw [if_neg hc, Option.or_none]

theorem accSlotOps_cons (m : Option Bytes) (a : Bytes) (sv : Bytes × Bytes)
    (rest : List (Bytes × Bytes)) :
    accSlotOps m a (sv :: rest) =
      (if covers m (a ++ sv.1) then [mkOp (stoKey a sv.1) sv.2] else []) ++
        accSlotOps m a rest := by
  simp [accSlotOps]

theorem stoKey_inj_slot {a s s' : Bytes} (h : stoKey a s = stoKey a s') : s = s' := by
  rw [stoKey_def, stoKey_def] at h
  injection h with _ h2
  exact List.append_cancel_left h2

theorem lastOpOn_accSlotOps {m : Option Bytes} {a : Bytes} {slots : List (Bytes × Bytes)}
    {s v : Bytes} (hnd : (slots.map Prod.fst).Nodup) (hm : (s, v) ∈ slots) :
    lastOpOn (stoKey a s) (accSlotOps m a slots) =
      if covers m (a ++ s) then some (mkOp (stoKey a s) v) else none := by
  induction slots with
  | nil => cases hm
  | cons sw rest ih =>
    obtain ⟨s', w⟩ := sw
    simp only [List.map_cons, List.nodup_cons] at hnd
    rw [accSlotOps_cons, lastOpOn_append]
    rcases List.mem_cons.mp hm with h | h
    · injection h with h1 h2
      subst h1; subst h2
      have hrest : lastOpOn (stoKey a s) (accSlotOps m a rest) = none := by
        apply lastOpOn_accSlotOps_none
        intro sv hsv hc
        exact hnd.1 (stoKey_inj_slot hc ▸ List.mem_map_of_mem Prod.fst hsv)
      rw [hrest, Option.none_or]
      by_cases hc : covers m (a ++ s) = true
      · rw [if_pos hc, if_pos hc, lastOpOn_single, mkOp_key, if_pos rfl]
      · rw [if_neg hc, if_neg hc]
        rfl
    · have hba : stoKey a s' ≠ stoKey a s := by
        intro hc
        have hb : s' = s := stoKey_inj_slot hc
        subst hb
        exact hnd.1 (List.mem_map_of_mem Prod.fst h)
      have hhead : lastOpOn (stoKey a s)
          (if covers m (a ++ s') then [mkOp (stoKey a s') w] else []) = none := by
        by_cases hc : covers m (a ++ s') = true
        · rw [if_pos hc, lastOpOn_single, mkOp_key, if_neg hba]
        · rw [if_neg hc]
          rfl
      rw [ih hnd.2 h, hhead]
      by_cases hc : covers m (a ++ s) = true
      · rw [if_pos hc, Option.or_none]
      · rw [if_neg hc, Option.or_none]

theorem storageOps_cons (m : Option Bytes) (asl : Bytes × List (Bytes × Bytes))
    (rest : List (Bytes × List (Bytes × Bytes))) :
    storageOps m (asl :: rest) = accSlotOps m asl.1 asl.2 ++ storageOps m rest := by
  simp [storageOps]

theorem lastOpOn_storageOps {m : Option Bytes} {stor : List (Bytes × List (Bytes × Bytes))}
    {a s v : Bytes} {slots : List (Bytes × Bytes)}
    (hndA : (stor.map Prod.fst).Nodup) (hmA : (a, slots) ∈ stor)
    (hndS : (slots.map Prod.fst).Nodup) (hmS : (s, v) ∈ slots)
    (hlen : ∀ asl ∈ stor, asl.1.length = a.length) :
    lastOpOn (stoKey a s) (storageOps m stor) =
      if covers m (a ++ s) then some (mkOp (stoKey a s) v) else none := by
  induction stor with
  | nil => cases hmA
  | cons bsl rest ih =>
    obtain ⟨b, bslots⟩ := bsl
    simp only [List.map_cons, List.nodup_cons] at hndA
    rw [storageOps_cons, lastOpOn_append]
    rcases List.mem_cons.mp hmA with h | h
    · injection h with h1 h2
      subst h1; subst h2
      have hrest : lastOpOn (stoKey a s) (storageOps m rest) = none := by
        apply lastOpOn_storageOps_none
        intro asl hasl sv hsv hc
        have hl : asl.1.length = a.length := hlen asl (List.mem_cons_of_mem _ hasl)
        have := stoKey_inj hl hc
        exact hndA.1 (this.1 ▸ List.mem_map_of_mem Prod.fst hasl)
      rw [hrest, Option.none_or]
      exact lastOpOn_accSlotOps hndS hmS
    · have hba : ∀ sv ∈ bslots, stoKey b sv.1 ≠ stoKey a s := by
        intro sv hsv hc
        have hl : b.length = a.length := hlen (b, bslots) (List.mem_cons_self _ _)
        have := stoKey_inj hl hc
        exact hndA.1 (this.1 ▸ List.mem_map_of_mem Prod.fst h)
      have hhead : lastOpOn (stoKey a s) (accSlotOps m b bslots) = none :=
        lastOpOn_accSlotOps_none hba
      rw [ih hndA.2 h (fun asl hasl => hlen asl (List.mem_cons_of_mem _ hasl)), hhead]
      by_cases hc : covers m (a ++ s) = true
      · rw [if_pos hc, Option.or_none]
      · rw [if_neg hc, Option.or_none]

theorem accKey_ne_stoKey (b a s : Bytes) : accKey b ≠ stoKey a s :=
  fun h => stoKey_ne_accKey a s b h.symm

theorem accKey_ne_rootKey (b : Bytes) : accKey b ≠ rootKey :=
  fun h => rootKey_ne_accKey b h.symm

theorem accKey_ne_genKey (b : Bytes) : accKey b ≠ genKey :=
  fun h => genKey_ne_accKey b h.symm

theorem stoKey_ne_genKey (a s : Bytes) : stoKey a s ≠ genKey :=
  fun h => genKey_ne_stoKey a s h.symm

theorem hasPre_stoPre_shape {b k : Bytes} (h : hasPre (stoPre ++ b) k = true) :
    ∃ t, k = 0x6F :: t := by
  rcases (hasPre_iff _ _).mp h with ⟨s, rfl⟩
  exact ⟨b ++ s, by simp [stoPre]⟩

theorem hasPre_stoPre_ne_accKey {b k c : Bytes} (h : hasPre (stoPre ++ b) k = true) :
    k ≠ accKey c := by
  rcases hasPre_stoPre_shape h with ⟨t, rfl⟩
  rw [accKey_def]
  intro hc
  injection hc with h1 _
  exact absurd h1 (by decide)

theorem hasPre_stoPre_ne_genKey {b k : Bytes} (h : hasPre (stoPre ++ b) k = true) :
    k ≠ genKey := by
  rcases hasPre_stoPre_shape h with ⟨t, rfl⟩
  intro hc
  injection hc with h1 _
  exact absurd h1 (by decide)

theorem hasPre_stoPre_eq {b a s : Bytes} (h : hasPre (stoPre ++ b) (stoKey a s) = true)
    (hl : b.length = a.length) : b = a := by
  rcases (hasPre_iff _ _).mp h with ⟨t, ht⟩
  rw [stoKey_def] at ht
  have ht' : (0x6F : Nat) :: (a ++ s) = 0x6F :: (b ++ t) := by
    rw [ht]
    simp [stoPre]
  injection ht' with _ h2
  exact ((List.append_inj h2 hl.symm).1).symm

theorem stoKey_drop_one (a s : Bytes) : (stoKey a s).drop 1 = a ++ s := by
  rw [stoKey_def]
  rfl

theorem hasPre_stoPre_stoKey (a s : Bytes) : hasPre (stoPre ++ a) (stoKey a s) = true :=
  hasPre_append (stoPre ++ a) s

/-- The account-key case of one flattening step: an account mutation not
destructed at the same layer ends as the account write itself when covered,
and as no operation otherwise. -/
theorem lastOpOn_diffOps_accKey {d : DiskLayer} {de : DiffEntry} {a v : Bytes}
    (hnd : (de.data.accounts.map Prod.fst).Nodup)
    (hm : (a, v) ∈ de.data.accounts)
    (hdis : a ∉ de.data.destructs) :
    lastOpOn (accKey a) (diffOps d de) =
      if covers d.genMarker a then some (mkOp (accKey a) v) else none := by
  rw [diffOps, lastOpOn_append, lastOpOn_append, lastOpOn_append]
  rw [lastOpOn_metaOps_of_ne (rootKey_ne_accKey a) (genKey_ne_accKey a)]
  rw [lastOpOn_storageOps_none (fun asl _ sv _ => stoKey_ne_accKey asl.1 sv.1 a)]
  rw [lastOpOn_accountOps hnd hm]
  rw [lastOpOn_destructOps_none
    (fun b hb hc => hdis (by rwa [accKey_inj hc] at hb))
    (fun kv _ b _ hpre => hasPre_stoPre_ne_accKey hpre)]
  by_cases hc : covers d.genMarker a = true
  · rw [if_pos hc, Option.none_or, Option.none_or, Option.or_none]
  · rw [if_neg hc, Option.none_or, Option.none_or, Option.or_none]

/-- The storage-key case of one flattening step for a slot written by the
diff on a non-destructed account. -/
theorem lastOpOn_diffOps_stoKey {d : DiskLayer} {de : DiffEntry}
    {a s v : Bytes} {slots : List (Bytes × Bytes)}
    (hndA : (de.data.storage.map Prod.fst).Nodup)
    (hmA : (a, slots) ∈ de.data.storage)
    (hndS : (slots.map Prod.fst).Nodup)
    (hmS : (s, v) ∈ slots)
    (hlen : ∀ asl ∈ de.data.storage, asl.1.length = a.length)
    (hdis : a ∉ de.data.destructs)
    (hdlen : ∀ b ∈ de.data.destructs, b.length = a.length) :
    lastOpOn (stoKey a s) (diffOps d de) =
      if covers d.genMarker (a ++ s) then some (mkOp (stoKey a s) v) else none := by
  rw [diffOps, lastOpOn_append, lastOpOn_append, lastOpOn_append]
  rw [lastOpOn_metaOps_of_ne (rootKey_ne_stoKey a s) (genKey_ne_stoKey a s)]
  rw [lastOpOn_storageOps hndA hmA hndS hmS hlen]
  rw [lastOpOn_accountOps_none (fun av _ => accKey_ne_stoKey av.1 a s)]
  rw [lastOpOn_destructOps_none
    (fun b _ hc => accKey_ne_stoKey b a s hc)
    (fun kv _ b hb hpre hc => hdis (by
      rw [← hasPre_stoPre_eq (hc ▸ hpre) (hdlen b hb)]
      exact hb))]
  by_cases hc : covers d.genMarker (a ++ s) = true
  · rw [if_pos hc, Option.none_or, Option.or_none, Option.or_none]
  · rw [if_neg hc, Option.none_or, Option.or_none, Option.or_none]

/-- The account-key case for an account destructed by the diff and not
re-created by it: the covered destruction ends as a delete. -/
theorem lastOpOn_diffOps_destructed {d : DiskLayer} {de : DiffEntry} {a : Bytes}
    (ha : a ∈ de.data.destructs)
    (hcov : covers d.genMarker a = true)
    (hdis : ∀ av ∈ de.data.accounts, av.1 ≠ a) :
    lastOpOn (accKey a) (diffOps d de) = some (.delOp (accKey a)) := by
  rw [diffOps, lastOpOn_append, lastOpOn_append, lastOpOn_append]
  rw [lastOpOn_metaOps_of_ne (rootKey_ne_accKey a) (genKey_ne_accKey a)]
  rw [lastOpOn_storageOps_none (fun asl _ sv _ => stoKey_ne_accKey asl.1 sv.1 a)]
  rw [lastOpOn_accountOps_none (fun av hav hc => hdis av hav (accKey_inj hc))]
  have hD : lastOpOn (accKey a) (destructOps d.kv d.genMarker de.data.destructs) =
      some (.delOp (accKey a)) := by
    apply lastOpOn_delOp_of
    · exact ⟨.delOp (accKey a), mem_destructOps.mpr ⟨a, ha, Or.inl ⟨hcov, rfl⟩⟩, rfl⟩
    · intro op hop hk
      rcases destructOps_all_delOp hop with ⟨k, rfl⟩
      rw [show k = accKey a from hk]
  rw [hD]
  rfl

/-- The storage-key case for a pre-existing slot of a destructed account not
re-created by the diff: the covered sweep ends as a delete. -/
theorem lastOpOn_diffOps_destructed_slot {d : DiskLayer} {de : DiffEntry} {a s w : Bytes}
    (ha : a ∈ de.data.destructs)
    (hkv : lookupE d.kv (stoKey a s) = some w)
    (hcov : covers d.genMarker (a ++ s) = true)
    (hdis : ∀ asl ∈ de.data.storage, ∀ sv ∈ asl.2, stoKey asl.1 sv.1 ≠ stoKey a s) :
    lastOpOn (stoKey a s) (diffOps d de) = some (.delOp (stoKey a s)) := by
  rw [diffOps, lastOpOn_append, lastOpOn_append, lastOpOn_append]
  rw [lastOpOn_metaOps_of_ne (rootKey_ne_stoKey a s) (genKey_ne_stoKey a s)]
  rw [lastOpOn_storageOps_none hdis]
  rw [lastOpOn_accountOps_none (fun av _ => accKey_ne_stoKey av.1 a s)]
  have hcond : (hasPre (stoPre ++ a) (stoKey a s) && covers d.genMarker
      ((stoKey a s).drop 1)) = true := by
    rw [Bool.and_eq_true]
    exact ⟨hasPre_stoPre_stoKey a s, by rw [stoKey_drop_one]; exact hcov⟩
  have hD : lastOpOn (stoKey a s) (destructOps d.kv d.genMarker de.data.destructs) =
      some (.delOp (stoKey a s)) := by
    apply lastOpOn_delOp_of
    · exact ⟨.delOp (stoKey a s),
        mem_destructOps.mpr ⟨a, ha, Or.inr (mem_slotDelOps.mpr
          ⟨(stoKey a s, w), mem_of_lookupE_eq_some hkv, hcond, rfl⟩)⟩, rfl⟩
    · intro op hop hk
      rcases destructOps_all_delOp hop with ⟨k, rfl⟩
      rw [show k = stoKey a s from hk]
  rw [hD]
  rfl

/-- The frame case for an account key the diff does not mention. -/
theorem lastOpOn_diffOps_accKey_frame {d : DiskLayer} {de : DiffEntry} {b : Bytes}
    (hd : b ∉ de.data.destructs)
    (hacc : ∀ av ∈ de.data.accounts, av.1 ≠ b) :
    lastOpOn (accKey b) (diffOps d de) = none := by
  rw [diffOps, lastOpOn_append, lastOpOn_append, lastOpOn_append]
  rw [lastOpOn_metaOps_of_ne (rootKey_ne_accKey b) (genKey_ne_accKey b)]
  rw [lastOpOn_storageOps_none (fun asl _ sv _ => stoKey_ne_accKey asl.1 sv.1 b)]
  rw [lastOpOn_accountOps_none (fun av hav hc => hacc av hav (accKey_inj hc))]
  rw [lastOpOn_destructOps_none
    (fun a ha hc => hd (by rwa [accKey_inj hc] at ha))
    (fun kv _ a _ hpre => hasPre_stoPre_ne_accKey hpre)]
  rfl

/-- The frame case for a storage key the diff does not mention, on an
account it does not destruct. -/
theorem lastOpOn_diffOps_stoKey_frame {d : DiskLayer} {de : DiffEntry} {b s2 : Bytes}
    (hd : b ∉ de.data.destructs)
    (hdlen : ∀ a ∈ de.data.destructs, a.length = b.length)
    (hslen : ∀ asl ∈ de.data.storage, asl.1.length = b.length)
    (hsto : ∀ asl ∈ de.data.storage, asl.1 = b → ∀ sv ∈ asl.2, sv.1 ≠ s2) :
    lastOpOn (stoKey b s2) (diffOps d de) = none := by
  rw [diffOps, lastOpOn_append, lastOpOn_append, lastOpOn_append]
  rw [lastOpOn_metaOps_of_ne (rootKey_ne_stoKey b s2) (genKey_ne_stoKey b s2)]
  rw [lastOpOn_storageOps_none (fun asl hasl sv hsv hc => by
    rcases stoKey_inj (hslen asl hasl) hc with ⟨h1, h2⟩
    exact hsto asl hasl h1 sv hsv h2)]
  rw [lastOpOn_accountOps_none (fun av _ => accKey_ne_stoKey av.1 b s2)]
  rw [lastOpOn_destructOps_none
    (fun a _ hc => accKey_ne_stoKey a b s2 hc)
    (fun kv _ a ha hpre hc => hd (by
      rw [← hasPre_stoPre_eq (hc ▸ hpre) (hdlen a ha)]
      exact ha))]
  rfl

/-- The generator-record key is written by the metadata step and untouched by
the diff's own mutations. -/
theorem lastOpOn_diffOps_genKey (d : DiskLayer) (de : DiffEntry) :
    lastOpOn genKey (diffOps d de) =
      some (.setOp genKey (encodeGenerator (genRecord d.genMarker))) := by
  rw [diffOps, lastOpOn_append, lastOpOn_append, lastOpOn_append]
  rw [lastOpOn_storageOps_none (fun asl _ sv _ => stoKey_ne_genKey asl.1 sv.1)]
  rw [lastOpOn_accountOps_none (fun av _ => accKey_ne_genKey av.1)]
  rw [lastOpOn_destructOps_none
    (fun a _ => accKey_ne_genKey a)
    (fun kv _ a _ hpre => hasPre_stoPre_ne_genKey hpre)]
  have hne : rootKey ≠ genKey := by decide
  have hmeta : lastOpOn genKey (metaOps de.root d.genMarker) =
      some (.setOp genKey (encodeGenerator (genRecord d.genMarker))) := by
    simp [metaOps, lastOpOn, KOp.key, hne]
  rw [hmeta]
  rfl

theorem lookupE_diffToDisk (d : DiskLayer) (de : DiffEntry) (q : Bytes) :
    lookupE (diffToDisk d de).kv q =
      match lastOpOn q (diffOps d de) with
      | some (.setOp _ v) => some v
      | some (.delOp _) => none
      | none => lookupE d.kv q :=
  lookupE_applyKOps d.kv (diffOps d de) q

theorem update_ok {t : Tree} {n p : Bytes} {dd : DiffData} {t' : Tree}
    (h : update t n p dd = .ok t') :
    n ≠ p ∧ hasRoot t p = true ∧ hasRoot t n = false ∧
      t' = ⟨t.disk, t.diffs ++ [⟨n, p, dd⟩]⟩ := by
  rw [update] at h
  split at h
  · exact absurd h (by simp)
  · rename_i h1
    split at h
    · exact absurd h (by simp)
    · rename_i h2
      split at h
      · exact absurd h (by simp)
      · rename_i h3
        injection h with h4
        exact ⟨h1, not_not.mp h2, Bool.not_eq_true _ |>.mp h3, h4.symm⟩

theorem chainTo_succ (t : Tree) (fuel : Nat) (r : Bytes) :
    chainTo t (fuel + 1) r =
      if r = t.disk.root then some []
      else
        match findEntry t.diffs r with
        | none => none
        | some de => (chainTo t fuel de.parent).map (de :: ·) := rfl

theorem chainTo_one_disk (d : DiskLayer) (diffs : List DiffEntry) :
    chainTo ⟨d, diffs⟩ 1 d.root = some [] := by
  rw [show (1 : Nat) = 0 + 1 from rfl, chainTo_succ]
  simp

theorem chainTo_two_single {d : DiskLayer} {de : DiffEntry}
    (hne : de.root ≠ d.root) (hp : de.parent = d.root) :
    chainTo ⟨d, [de]⟩ 2 de.root = some [de] := by
  rw [show (2 : Nat) = 1 + 1 from rfl, chainTo_succ]
  rw [if_neg hne]
  have hf : findEntry (Tree.mk d [de]).diffs de.root = some de := by
    simp [findEntry]
  rw [hf]
  have e1 : chainTo ⟨d, [de]⟩ 1 de.parent = some [] := by
    rw [hp]
    exact chainTo_one_disk d [de]
  show (chainTo ⟨d, [de]⟩ 1 de.parent).map (de :: ·) = some [de]
  rw [e1]
  rfl

theorem capAll_single {d : DiskLayer} {de : DiffEntry}
    (hne : de.root ≠ d.root) (hp : de.parent = d.root) :
    capAll ⟨d, [de]⟩ de.root = .ok ⟨diffToDisk d de, []⟩ := by
  rw [capAll]
  have hlen : (Tree.mk d [de]).diffs.length + 1 = 2 := rfl
  rw [hlen, chainTo_two_single hne hp]
  rfl

/-- A single Update followed by Cap(·, 0) over a lone disk layer computes to
one flattening step. -/
theorem updateCap_single {d : DiskLayer} {dd : DiffData} {nr : Bytes} {t₁ t₂ : Tree}
    (h1 : update ⟨d, []⟩ nr d.root dd = .ok t₁)
    (h2 : capAll t₁ nr = .ok t₂) :
    t₂ = ⟨diffToDisk d ⟨nr, d.root, dd⟩, []⟩ := by
  obtain ⟨hne, _, _, ht₁⟩ := update_ok h1
  have ht₁' : t₁ = ⟨d, [⟨nr, d.root, dd⟩]⟩ := by rw [ht₁]; rfl
  have hcap : capAll ⟨d, [⟨nr, d.root, dd⟩]⟩ nr =
      .ok ⟨diffToDisk d ⟨nr, d.root, dd⟩, []⟩ :=
    capAll_single hne rfl
  rw [ht₁', hcap] at h2
  injection h2 with h2
  exact h2.symm

theorem findEntry_root {l : List DiffEntry} {r : Bytes} {de : DiffEntry}
    (h : findEntry l r = some de) : de.root = r := by
  have := List.find?_some h
  exact of_decide_eq_true this

theorem chainTo_shape {t : Tree} {fuel : Nat} {r : Bytes} {ds : List DiffEntry}
    (h : chainTo t fuel r = some ds) :
    (ds = [] ∧ r = t.disk.root) ∨ ∃ de rest, ds = de :: rest ∧ de.root = r := by
  cases fuel with
  | zero => exact absurd h (by simp [chainTo])
  | succ n =>
    rw [chainTo_succ] at h
    split at h
    · rename_i hr
      injection h with h
      exact Or.inl ⟨h.symm, hr⟩
    · cases hf : findEntry t.diffs r with
      | none => rw [hf] at h; cases h
      | some de =>
        rw [hf] at h
        show _ ∨ ∃ de' rest, ds = de' :: rest ∧ de'.root = r
        rcases Option.map_eq_some'.mp h with ⟨l, _, hl⟩
        exact Or.inr ⟨de, l, hl.symm, findEntry_root hf⟩

theorem diffToDisk_root (d : DiskLayer) (de : DiffEntry) : (diffToDisk d de).root = de.root :=
  rfl

theorem capAll_ok {t : Tree} {r : Bytes} {t' : Tree} (h : capAll t r = .ok t') :
    t'.diffs = [] ∧ t'.disk.root = r := by
  rw [capAll] at h
  cases hc : chainTo t (t.diffs.length + 1) r with
  | none => rw [hc] at h; exact absurd h (by simp)
  | some ds =>
    rw [hc] at h
    injection h with h
    subst h
    refine ⟨rfl, ?_⟩
    show (ds.reverse.foldl diffToDisk t.disk).root = r
    rcases chainTo_shape hc with ⟨hds, hr⟩ | ⟨de, rest, hds, hr⟩
    · subst hds
      exact hr.symm
    · subst hds
      rw [List.reverse_cons, List.foldl_append]
      exact hr

theorem diffToDisk_stale (d : DiskLayer) (de : DiffEntry) : (diffToDisk d de).stale = false :=
  rfl

theorem diffToDisk_genMarker (d : DiskLayer) (de : DiffEntry) :
    (diffToDisk d de).genMarker = d.genMarker := rfl

theorem diskAccountRLP_diffToDisk_none {d : DiskLayer} (de : DiffEntry) (a : Bytes)
    (hgen : d.genMarker = none) :
    diskAccountRLP (diffToDisk d de) a =
      .ok ((lookupE (diffToDisk d de).kv (accKey a)).getD []) := by
  rw [diskAccountRLP, diffToDisk_stale, diffToDisk_genMarker, hgen]
  rfl

theorem diskStorage_diffToDisk_none {d : DiskLayer} (de : DiffEntry) (a s : Bytes)
    (hgen : d.genMarker = none) :
    diskStorage (diffToDisk d de) a s =
      .ok ((lookupE (diffToDisk d de).kv (stoKey a s)).getD []) := by
  rw [diskStorage, diffToDisk_stale, diffToDisk_genMarker, hgen]
  rfl

/-- Claim C1: over a fully generated disk layer (genMarker nil), after
Update(diffRoot, baseRoot, destructed, accounts, storage) and Cap(diffRoot, 0):
every account of the diff reads back its diff value both through the
resulting disk layer and as a raw KV account-snapshot read; every destructed
account and each of its pre-existing storage slots read back empty bytes both
ways; every written storage slot reads back its diff value both ways; and
keys the diff does not mention keep their pre-Cap KV values.  The Go maps of
the diff are modelled by association lists, so their key uniqueness is a
hypothesis, hashes are 32 bytes, and a destructed account does not reappear
in the account or storage maps (the inputs the test exercises). -/
theorem C1_disk_merge
    (d : DiskLayer) (diffRoot : Bytes) (dd : DiffData) (t₁ t₂ : Tree)
    (hgen : d.genMarker = none)
    (hu : update ⟨d, []⟩ diffRoot d.root dd = .ok t₁)
    (hcap : capAll t₁ diffRoot = .ok t₂)
    (hndA : (dd.accounts.map Prod.fst).Nodup)
    (hndS : (dd.storage.map Prod.fst).Nodup)
    (hndSS : ∀ asl ∈ dd.storage, (asl.2.map Prod.fst).Nodup)
    (hlenD : ∀ a ∈ dd.destructs, a.length = 32)
    (hlenS : ∀ asl ∈ dd.storage, asl.1.length = 32)
    (hdisA : ∀ a ∈ dd.destructs, a ∉ dd.accounts.map Prod.fst)
    (hdisS : ∀ a ∈ dd.destructs, a ∉ dd.storage.map Prod.fst) :
    (∀ av ∈ dd.accounts,
      diskAccountRLP t₂.disk av.1 = .ok av.2 ∧ rawReadAccount t₂.disk.kv av.1 = av.2) ∧
    (∀ a ∈ dd.destructs,
      (diskAccountRLP t₂.disk a = .ok [] ∧ rawReadAccount t₂.disk.kv a = []) ∧
      ∀ s w, lookupE d.kv (stoKey a s) = some w →
        diskStorage t₂.disk a s = .ok [] ∧ rawReadStorage t₂.disk.kv a s = []) ∧
    (∀ asl ∈ dd.storage, ∀ sv ∈ asl.2,
      diskStorage t₂.disk asl.1 sv.1 = .ok sv.2 ∧
      rawReadStorage t₂.disk.kv asl.1 sv.1 = sv.2) ∧
    (∀ b, b ∉ dd.destructs → b ∉ dd.accounts.map Prod.fst →
      lookupE t₂.disk.kv (accKey b) = lookupE d.kv (accKey b)) ∧
    (∀ b s2, b.length = 32 → b ∉ dd.destructs →
      (∀ asl ∈ dd.storage, asl.1 = b → ∀ sv ∈ asl.2, sv.1 ≠ s2) →
      lookupE t₂.disk.kv (stoKey b s2) = lookupE d.kv (stoKey b s2)) := by
  have ht₂ := updateCap_single hu hcap
  subst ht₂
  refine ⟨?_, ?_, ?_, ?_, ?_⟩
  · -- accounts
    intro av hav
    have hdis : av.1 ∉ dd.destructs := fun hin =>
      hdisA av.1 hin (List.mem_map_of_mem Prod.fst hav)
    have hlook : lookupE (diffToDisk d ⟨diffRoot, d.root, dd⟩).kv (accKey av.1) =
        if av.2 = [] then none else some av.2 := by
      rw [lookupE_diffToDisk, lastOpOn_diffOps_accKey hndA hav hdis, hgen]
      by_cases hv : av.2 = [] <;> simp [covers, mkOp, hv]
    constructor
    · rw [diskAccountRLP_diffToDisk_none _ _ hgen, hlook]
      by_cases hv : av.2 = [] <;> simp [hv]
    · rw [rawReadAccount, hlook]
      by_cases hv : av.2 = [] <;> simp [hv]
  · -- destructed accounts and their pre-existing slots
    intro a ha
    have hdis : ∀ av ∈ dd.accounts, av.1 ≠ a := fun av hav hc =>
      hdisA a ha (hc ▸ List.mem_map_of_mem Prod.fst hav)
    have hlook : lookupE (diffToDisk d ⟨diffRoot, d.root, dd⟩).kv (accKey a) = none := by
      rw [lookupE_diffToDisk, lastOpOn_diffOps_destructed ha (by rw [hgen]; rfl) hdis]
    refine ⟨⟨?_, ?_⟩, ?_⟩
    · rw [diskAccountRLP_diffToDisk_none _ _ hgen, hlook]
      rfl
    · rw [rawReadAccount, hlook]
      rfl
    · intro s w hw
      have hdisSlot : ∀ asl ∈ dd.storage, ∀ sv ∈ asl.2,
          stoKey asl.1 sv.1 ≠ stoKey a s := by
        intro asl hasl sv _ hc
        rcases stoKey_inj (by rw [hlenS asl hasl, hlenD a ha]) hc with ⟨h1, _⟩
        exact hdisS a ha (h1 ▸ List.mem_map_of_mem Prod.fst hasl)
      have hlook2 : lookupE (diffToDisk d ⟨diffRoot, d.root, dd⟩).kv (stoKey a s) = none := by
        rw [lookupE_diffToDisk,
          lastOpOn_diffOps_destructed_slot ha hw (by rw [hgen]; rfl) hdisSlot]
      constructor
      · rw [diskStorage_diffToDisk_none _ _ _ hgen, hlook2]
        rfl
      · rw [rawReadStorage, hlook2]
        rfl
  · -- storage slots
    intro asl hasl sv hsv
    have hdis : asl.1 ∉ dd.destructs := fun hin =>
      hdisS asl.1 hin (List.mem_map_of_mem Prod.fst hasl)
    have hlen : ∀ asl' ∈ dd.storage, asl'.1.length = asl.1.length := fun asl' hasl' => by
      rw [hlenS asl' hasl', hlenS asl hasl]
    have hdlen : ∀ b ∈ dd.destructs, b.length = asl.1.length := fun b hb => by
      rw [hlenD b hb, hlenS asl hasl]
    have hlook : lookupE (diffToDisk d ⟨diffRoot, d.root, dd⟩).kv (stoKey asl.1 sv.1) =
        if sv.2 = [] then none else some sv.2 := by
      rw [lookupE_diffToDisk,
        lastOpOn_diffOps_stoKey hndS hasl (hndSS asl hasl) hsv hlen hdis hdlen, hgen]
      by_cases hv : sv.2 = [] <;> simp [covers, mkOp, hv]
    constructor
    · rw [diskStorage_diffToDisk_none _ _ _ hgen, hlook]
      by_cases hv : sv.2 = [] <;> simp [hv]
    · rw [rawReadStorage, hlook]
      by_cases hv : sv.2 = [] <;> simp [hv]
  · -- account frame
    intro b hb hbacc
    have hacc : ∀ av ∈ dd.accounts, av.1 ≠ b := fun av hav hc =>
      hbacc (hc ▸ List.mem_map_of_mem Prod.fst hav)
    rw [lookupE_diffToDisk, lastOpOn_diffOps_accKey_frame hb hacc]
  · -- storage frame
    intro b s2 hblen hb hsto
    rw [lookupE_diffToDisk, lastOpOn_diffOps_stoKey_frame hb
      (fun a ha => by rw [hlenD a ha, hblen])
      (fun asl hasl => by rw [hlenS asl hasl, hblen])
      hsto]

theorem accKey_drop_one (a : Bytes) : (accKey a).drop 1 = a := rfl

theorem lastOpOn_destructOps_acc_dropped {e : Entries} {m : Option Bytes} {ds : List Bytes}
    {a : Bytes} (hcovF : covers m a = false) :
    lastOpOn (accKey a) (destructOps e m ds) = none := by
  apply lastOpOn_eq_none_of_forall
  intro op hop
  rcases mem_destructOps.mp hop with ⟨a', _, ⟨hc, rfl⟩ | hin⟩
  · intro hk
    have ha : a' = a := accKey_inj hk
    subst ha
    rw [hc] at hcovF
    cases hcovF
  · rcases mem_slotDelOps.mp hin with ⟨kv, _, hcnd, rfl⟩
    exact hasPre_stoPre_ne_accKey (Bool.and_elim_left hcnd)

theorem lastOpOn_diffOps_destructed_dropped {d : DiskLayer} {de : DiffEntry} {a : Bytes}
    (hcovF : covers d.genMarker a = false)
    (hdis : ∀ av ∈ de.data.accounts, av.1 ≠ a) :
    lastOpOn (accKey a) (diffOps d de) = none := by
  rw [diffOps, lastOpOn_append, lastOpOn_append, lastOpOn_append]
  rw [lastOpOn_metaOps_of_ne (rootKey_ne_accKey a) (genKey_ne_accKey a)]
  rw [lastOpOn_storageOps_none (fun asl _ sv _ => stoKey_ne_accKey asl.1 sv.1 a)]
  rw [lastOpOn_accountOps_none (fun av hav hc => hdis av hav (accKey_inj hc))]
  rw [lastOpOn_destructOps_acc_dropped hcovF]
  rfl

theorem lookup_acc_none_of_marker {e : Entries} {m b : Bytes}
    (hcov : ∀ kv ∈ e, (hasPre accPre kv.1 || hasPre stoPre kv.1) = true →
      bytesLe (kv.1.drop 1) m = true)
    (hb : bytesLe b m = false) : lookupE e (accKey b) = none := by
  cases hl : lookupE e (accKey b) with
  | none => rfl
  | some w =>
    have hm := mem_of_lookupE_eq_some hl
    have := hcov _ hm (by
      rw [Bool.or_eq_true]
      exact Or.inl (by rw [accKey]; exact hasPre_append _ _))
    rw [accKey_drop_one] at this
    rw [this] at hb
    cases hb

theorem lookup_sto_none_of_marker {e : Entries} {m b s : Bytes}
    (hcov : ∀ kv ∈ e, (hasPre accPre kv.1 || hasPre stoPre kv.1) = true →
      bytesLe (kv.1.drop 1) m = true)
    (hb : bytesLe (b ++ s) m = false) : lookupE e (stoKey b s) = none := by
  cases hl : lookupE e (stoKey b s) with
  | none => rfl
  | some w =>
    have hm := mem_of_lookupE_eq_some hl
    have := hcov _ hm (by
      rw [Bool.or_eq_true]
      refine Or.inr ?_
      rw [show stoKey b s = stoPre ++ (b ++ s) from by rw [stoKey]; simp]
      exact hasPre_append _ _)
    rw [stoKey_drop_one] at this
    rw [this] at hb
    cases hb

theorem stoKey_concat_inj {a s b t : Bytes} (h : stoKey a s = stoKey b t) :
    a ++ s = b ++ t := by
  have hd := congrArg (List.drop 1) h
  rwa [stoKey_drop_one, stoKey_drop_one] at hd

theorem lastOpOn_accountOps_beyond {m : Option Bytes} {accs : List (Bytes × Bytes)}
    {k : Bytes} (hcovF : covers m k = false) :
    lastOpOn (accKey k) (accountOps m accs) = none := by
  apply lastOpOn_eq_none_of_forall
  intro op hop
  rcases mem_accountOps.mp hop with ⟨av, _, hc, rfl⟩
  rw [mkOp_key]
  intro hk
  rw [accKey_inj hk] at hc
  rw [hc] at hcovF
  cases hcovF

theorem lastOpOn_storageOps_beyond {m : Option Bytes}
    {stor : List (Bytes × List (Bytes × Bytes))} {a s : Bytes}
    (hcovF : covers m (a ++ s) = false) :
    lastOpOn (stoKey a s) (storageOps m stor) = none := by
  apply lastOpOn_eq_none_of_forall
  intro op hop
  rcases mem_storageOps.mp hop with ⟨asl, _, hin⟩
  rcases mem_accSlotOps.mp hin with ⟨sv, _, hc, rfl⟩
  rw [mkOp_key]
  intro hk
  rw [stoKey_concat_inj hk] at hc
  rw [hc] at hcovF
  cases hcovF

theorem lastOpOn_destructOps_sto_beyond {e : Entries} {m : Option Bytes} {ds : List Bytes}
    {a s : Bytes} (hcovF : covers m (a ++ s) = false) :
    lastOpOn (stoKey a s) (destructOps e m ds) = none := by
  apply lastOpOn_eq_none_of_forall
  intro op hop
  rcases mem_destructOps.mp hop with ⟨a', _, ⟨_, rfl⟩ | hin⟩
  · exact accKey_ne_stoKey a' a s
  · rcases mem_slotDelOps.mp hin with ⟨kv, _, hcnd, rfl⟩
    intro hk
    have hk' : kv.1 = stoKey a s := hk
    have hc := Bool.and_elim_right hcnd
    rw [hk', stoKey_drop_one] at hc
    rw [hc] at hcovF
    cases hcovF

theorem lastOpOn_diffOps_acc_beyond {d : DiskLayer} {de : DiffEntry} {k : Bytes}
    (hcovF : covers d.genMarker k = false) :
    lastOpOn (accKey k) (diffOps d de) = none := by
  rw [diffOps, lastOpOn_append, lastOpOn_append, lastOpOn_append]
  rw [lastOpOn_metaOps_of_ne (rootKey_ne_accKey k) (genKey_ne_accKey k)]
  rw [lastOpOn_storageOps_none (fun asl _ sv _ => stoKey_ne_accKey asl.1 sv.1 k)]
  rw [lastOpOn_accountOps_beyond hcovF]
  rw [lastOpOn_destructOps_acc_dropped hcovF]
  rfl

theorem lastOpOn_diffOps_sto_beyond {d : DiskLayer} {de : DiffEntry} {a s : Bytes}
    (hcovF : covers d.genMarker (a ++ s) = false) :
    lastOpOn (stoKey a s) (diffOps d de) = none := by
  rw [diffOps, lastOpOn_append, lastOpOn_append, lastOpOn_append]
  rw [lastOpOn_metaOps_of_ne (rootKey_ne_stoKey a s) (genKey_ne_stoKey a s)]
  rw [lastOpOn_storageOps_beyond hcovF]
  rw [lastOpOn_accountOps_none (fun av _ => accKey_ne_stoKey av.1 a s)]
  rw [lastOpOn_destructOps_sto_beyond hcovF]
  rfl

/-- Claim C2: when Cap flattens a diff onto a disk layer whose generation
marker is a non-nil byte string m, every mutation whose payload key lies
strictly beyond the marker is dropped: for EVERY account hash k with k > m
the raw KV store has no account-snapshot entry for k after Cap, and for
EVERY pair (a, s) with a‖s > m it has no storage-snapshot entry, regardless
of what the flattened diff contained (the pre-Cap store holds no snapshot
key beyond the marker, the spec's invariant 5); while mutations at or below
m are persisted: account and slot writes store their value (a delete for
empty bytes) and covered destructions remove the account key.  Uniqueness of
the Go map keys, 32-byte hashes and destructed accounts not reappearing in
the diff are hypotheses as in the merge claim. -/
theorem C2_partial_merge
    (d : DiskLayer) (m diffRoot : Bytes) (dd : DiffData) (t₁ t₂ : Tree)
    (hgen : d.genMarker = some m)
    (hu : update ⟨d, []⟩ diffRoot d.root dd = .ok t₁)
    (hcap : capAll t₁ diffRoot = .ok t₂)
    (hcov : ∀ kv ∈ d.kv, (hasPre accPre kv.1 || hasPre stoPre kv.1) = true →
      bytesLe (kv.1.drop 1) m = true)
    (hndA : (dd.accounts.map Prod.fst).Nodup)
    (hndS : (dd.storage.map Prod.fst).Nodup)
    (hndSS : ∀ asl ∈ dd.storage, (asl.2.map Prod.fst).Nodup)
    (hlenD : ∀ a ∈ dd.destructs, a.length = 32)
    (hlenS : ∀ asl ∈ dd.storage, asl.1.length = 32)
    (hdisA : ∀ a ∈ dd.destructs, a ∉ dd.accounts.map Prod.fst)
    (hdisS : ∀ a ∈ dd.destructs, a ∉ dd.storage.map Prod.fst) :
    (∀ k, bytesLe k m = false → lookupE t₂.disk.kv (accKey k) = none) ∧
    (∀ a s, bytesLe (a ++ s) m = false → lookupE t₂.disk.kv (stoKey a s) = none) ∧
    (∀ av ∈ dd.accounts, bytesLe av.1 m = true →
      lookupE t₂.disk.kv (accKey av.1) = if av.2 = [] then none else some av.2) ∧
    (∀ a ∈ dd.destructs, bytesLe a m = true →
      lookupE t₂.disk.kv (accKey a) = none) ∧
    (∀ asl ∈ dd.storage, ∀ sv ∈ asl.2, bytesLe (asl.1 ++ sv.1) m = true →
      lookupE t₂.disk.kv (stoKey asl.1 sv.1) = if sv.2 = [] then none else some sv.2) := by
  have ht₂ := updateCap_single hu hcap
  subst ht₂
  refine ⟨?_, ?_, ?_, ?_, ?_⟩
  · intro k hb
    rw [lookupE_diffToDisk, lastOpOn_diffOps_acc_beyond (by rw [hgen]; exact hb)]
    exact lookup_acc_none_of_marker hcov hb
  · intro a s hb
    rw [lookupE_diffToDisk, lastOpOn_diffOps_sto_beyond (by rw [hgen]; exact hb)]
    exact lookup_sto_none_of_marker hcov hb
  · intro av hav hb
    have hdis : av.1 ∉ dd.destructs := fun hin =>
      hdisA av.1 hin (List.mem_map_of_mem Prod.fst hav)
    rw [lookupE_diffToDisk, lastOpOn_diffOps_accKey hndA hav hdis, hgen]
    rw [show covers (some m) av.1 = true from hb, if_pos rfl]
    by_cases hv : av.2 = [] <;> simp [mkOp, hv]
  · intro a ha hb
    have hdis : ∀ av ∈ dd.accounts, av.1 ≠ a := fun av hav hc =>
      hdisA a ha (hc ▸ List.mem_map_of_mem Prod.fst hav)
    rw [lookupE_diffToDisk,
      lastOpOn_diffOps_destructed ha (by rw [hgen]; exact hb) hdis]
  · intro asl hasl sv hsv hb
    have hdis : asl.1 ∉ dd.destructs := fun hin =>
      hdisS asl.1 hin (List.mem_map_of_mem Prod.fst hasl)
    have hlen : ∀ asl' ∈ dd.storage, asl'.1.length = asl.1.length := fun asl' hasl' => by
      rw [hlenS asl' hasl', hlenS asl hasl]
    have hdlen : ∀ b ∈ dd.destructs, b.length = asl.1.length := fun b hb' => by
      rw [hlenD b hb', hlenS asl hasl]
    rw [lookupE_diffToDisk,
      lastOpOn_diffOps_stoKey hndS hasl (hndSS asl hasl) hsv hlen hdis hdlen, hgen]
    rw [show covers (some m) (asl.1 ++ sv.1) = true from hb, if_pos rfl]
    by_cases hv : sv.2 = [] <;> simp [mkOp, hv]

/-- Claim C3: on a non-stale disk layer with a non-nil generation marker,
AccountRLP fails with NotCoveredYet exactly when the account hash is beyond
the marker (bytewise), Storage fails with NotCoveredYet exactly when the
64-byte concatenation account‖slot is beyond the marker, and reads at or
below the marker succeed with the stored value — empty bytes for absence —
never with the error. -/
theorem C3_not_covered_yet (d : DiskLayer) (m a s : Bytes)
    (hm : d.genMarker = some m) (hst : d.stale = false) :
    (diskAccountRLP d a = .error .notCoveredYet ↔ bytesLe a m = false) ∧
    (bytesLe a m = true →
      diskAccountRLP d a = .ok ((lookupE d.kv (accKey a)).getD [])) ∧
    (diskStorage d a s = .error .notCoveredYet ↔ bytesLe (a ++ s) m = false) ∧
    (bytesLe (a ++ s) m = true →
      diskStorage d a s = .ok ((lookupE d.kv (stoKey a s)).getD [])) := by
  refine ⟨?_, ?_, ?_, ?_⟩
  · cases hb : bytesLe a m <;> simp [diskAccountRLP, hst, hm, covers, hb]
  · intro hb
    simp [diskAccountRLP, hst, hm, covers, hb]
  · cases hb : bytesLe (a ++ s) m <;> simp [diskStorage, hst, hm, covers, hb]
  · intro hb
    simp [diskStorage, hst, hm, covers, hb]

/-- Claim C4: the generation marker survives flattening and its clearing is
persisted.  With the disk layer's marker equal to a non-nil M, after
Update+Cap the stored generator record decodes with marker M; after the
marker is cleared on the resulting disk layer and another Update+Cap runs,
the stored generator record decodes with an empty marker. -/
theorem C4_generator_persistence
    (d : DiskLayer) (M r1 r2 : Bytes) (dd1 dd2 : DiffData) (t₁ t₂ t₃ t₄ : Tree)
    (hgen : d.genMarker = some M)
    (hu1 : update ⟨d, []⟩ r1 d.root dd1 = .ok t₁)
    (hc1 : capAll t₁ r1 = .ok t₂)
    (hu2 : update ⟨⟨t₂.disk.root, t₂.disk.kv, none, false⟩, []⟩ r2 t₂.disk.root dd2 = .ok t₃)
    (hc2 : capAll t₃ r2 = .ok t₄) :
    ((lookupE t₂.disk.kv genKey).bind decodeGenerator).map JournalGen.marker = some M ∧
    ((lookupE t₄.disk.kv genKey).bind decodeGenerator).map JournalGen.marker = some [] := by
  have ht₂ := updateCap_single hu1 hc1
  constructor
  · obtain ⟨rec, hdec, hmar⟩ := decodeGenerator_encodeGenerator_marker (genRecord (some M))
    have hl : lookupE t₂.disk.kv genKey =
        some (encodeGenerator (genRecord (some M))) := by
      rw [ht₂]
      show lookupE (diffToDisk d ⟨r1, d.root, dd1⟩).kv genKey = _
      rw [lookupE_diffToDisk, lastOpOn_diffOps_genKey, hgen]
    rw [hl, Option.some_bind, hdec, Option.map_some', hmar]
    rfl
  · have ht₄ := updateCap_single hu2 hc2
    obtain ⟨rec, hdec, hmar⟩ := decodeGenerator_encodeGenerator_marker (genRecord none)
    have hl : lookupE t₄.disk.kv genKey =
        some (encodeGenerator (genRecord none)) := by
      rw [ht₄]
      show lookupE (diffToDisk ⟨t₂.disk.root, t₂.disk.kv, none, false⟩
        ⟨r2, t₂.disk.root, dd2⟩).kv genKey = _
      rw [lookupE_diffToDisk, lastOpOn_diffOps_genKey]
    rw [hl, Option.some_bind, hdec, Option.map_some', hmar]
    rfl

/-- Claim C5: a successful Cap with retention zero leaves Snapshot of the
capped root resolving to the disk layer and Snapshot of every other root
resolving to nil. -/
theorem C5_cap_zero (t : Tree) (R : Bytes) (t' : Tree) (h : capAll t R = .ok t') :
    (∃ dl, snapshotL t' R = some (.disk dl)) ∧
    (∀ r, r ≠ R → snapshotL t' r = none) := by
  obtain ⟨hdfs, hroot⟩ := capAll_ok h
  constructor
  · exact ⟨t'.disk, by rw [snapshotL, if_pos hroot.symm]⟩
  · intro r hr
    rw [snapshotL, if_neg (by rw [hroot]; exact hr), hdfs]
    rfl

end Snapshot

theorem bytesLe_cons_inv {x : Nat} {xs k : Bytes} (h : bytesLe (x :: xs) k = true) :
    ∃ y ys, k = y :: ys ∧ x ≤ y := by
  cases k with
  | nil => cases h
  | cons y ys =>
    refine ⟨y, ys, rfl, ?_⟩
    by_cases hxy : x < y
    · exact Nat.le_of_lt hxy
    · by_cases hyx : y < x
      · rw [bytesLe, if_neg hxy, if_pos hyx] at h
        cases h
      · exact Nat.le_of_not_lt hyx

theorem bytesLt_cons_same (x : Nat) (a b : Bytes) :
    bytesLt (x :: a) (x :: b) = bytesLt a b := by
  simp [bytesLt]

theorem pairwise_lt_of_sorted_nodup : ∀ {l : Entries},
    List.Pairwise pairLe l → (keysOf l).Nodup →
    List.Pairwise (fun p q : Bytes × Bytes => bytesLt p.1 q.1 = true) l := by
  intro l hp hnd
  induction l with
  | nil => exact List.Pairwise.nil
  | cons kv r ih =>
    rw [List.pairwise_cons] at hp ⊢
    simp only [keysOf, List.map_cons, List.nodup_cons] at hnd
    refine ⟨fun kv' hkv' => ?_, ih hp.2 hnd.2⟩
    rw [bytesLt_iff]
    refine ⟨hp.1 kv' hkv', fun hc => ?_⟩
    exact hnd.1 (hc ▸ List.mem_map_of_mem Prod.fst hkv')

namespace Snapshot

theorem hasPre_accPre_cons (y : Nat) (ys : Bytes) :
    hasPre accPre (y :: ys) = true ↔ y = 0x61 := by
  by_cases hy : (0x61 : Nat) = y
  · subst hy
    simp [accPre, hasPre]
  · simp [accPre, hasPre, hy]
    exact fun hc => hy hc.symm

theorem not_accPre_upward {seek k k' : Bytes}
    (hk : bytesLe (accPre ++ seek) k = true)
    (hnp : hasPre accPre k = false)
    (hkk : bytesLe k k' = true) : hasPre accPre k' = false := by
  have hk' : bytesLe (0x61 :: seek) k = true := hk
  obtain ⟨y, ys, rfl, hxy⟩ := bytesLe_cons_inv hk'
  have hy : y ≠ 0x61 := by
    intro hc
    have h1 : hasPre accPre (y :: ys) = true := (hasPre_accPre_cons y ys).mpr hc
    rw [h1] at hnp
    cases hnp
  have hylt : 0x61 < y := Nat.lt_of_le_of_ne hxy (fun hc => hy hc.symm)
  obtain ⟨z, zs, rfl, hyz⟩ := bytesLe_cons_inv hkk
  have hz : (0x61 : Nat) < z := Nat.lt_of_lt_of_le hylt hyz
  rw [Bool.eq_false_iff]
  intro hc
  exact absurd ((hasPre_accPre_cons z zs).mp hc) (Nat.ne_of_gt hz)

theorem takeWhile_accPre_eq_filter {seek : Bytes} : ∀ {l : Entries},
    List.Pairwise pairLe l →
    (∀ kv ∈ l, bytesLe (accPre ++ seek) kv.1 = true) →
    l.takeWhile (fun kv => hasPre accPre kv.1) =
      l.filter (fun kv => hasPre accPre kv.1) := by
  intro l hs hlow
  induction l with
  | nil => rfl
  | cons kv r ih =>
    rw [List.pairwise_cons] at hs
    cases hp : hasPre accPre kv.1 with
    | true =>
      have htail := ih hs.2 (fun kv' hkv' => hlow kv' (List.mem_cons_of_mem _ hkv'))
      simp [List.takeWhile_cons, List.filter_cons, hp, htail]
    | false =>
      have hall : ∀ kv' ∈ r, hasPre accPre kv'.1 = false := fun kv' hkv' =>
        not_accPre_upward (hlow kv (List.mem_cons_self _ _)) hp (hs.1 kv' hkv')
      have hfil : (r.filter fun kv => hasPre accPre kv.1) = [] :=
        List.filter_eq_nil_iff.mpr (fun kv' hkv' => by rw [hall kv' hkv']; simp)
      simp [List.takeWhile_cons, List.filter_cons, hp, hfil]

/-- Claim C6: for every seek position, the disk-layer account iterator yields
the account hashes stored under the account prefix at or beyond the seek, in
strictly ascending byte order, with each value equal to the stored bytes; it
never yields an entry of a different KV prefix, and a seek beyond the last
account hash yields nothing even when the store holds a higher-prefix key. -/
theorem C6_disk_seek (e : Entries) (seek : Bytes) (hnd : (keysOf e).Nodup) :
    List.Pairwise (fun p q : Bytes × Bytes => bytesLt p.1 q.1 = true)
      (diskAccountIterator e seek) ∧
    (∀ h v, (h, v) ∈ diskAccountIterator e seek ↔
      ((0x61 :: h, v) ∈ e ∧ bytesLe seek h = true)) ∧
    ((∀ h v, (0x61 :: h, v) ∈ e → bytesLe seek h = false) →
      diskAccountIterator e seek = []) := by
  have hsorted := sortPairs_sorted (e.filter fun kv => bytesLe (accPre ++ seek) kv.1)
  have hlow : ∀ kv ∈ sortPairs (e.filter fun kv => bytesLe (accPre ++ seek) kv.1),
      bytesLe (accPre ++ seek) kv.1 = true := by
    intro kv hkv
    have := (mem_sortPairs _ kv).mp hkv
    exact (List.mem_filter.mp this).2
  have htake := takeWhile_accPre_eq_filter hsorted hlow
  have hndT : (keysOf (sortPairs (e.filter fun kv => bytesLe (accPre ++ seek) kv.1))).Nodup := by
    have h1 : (keysOf (e.filter fun kv => bytesLe (accPre ++ seek) kv.1)).Nodup :=
      ((List.filter_sublist e).map Prod.fst).nodup hnd
    exact ((sortPairs_perm _).map Prod.fst).nodup_iff.mpr h1
  have hmemT : ∀ kv : Bytes × Bytes,
      kv ∈ (sortPairs (e.filter fun kv => bytesLe (accPre ++ seek) kv.1)).takeWhile
        (fun kv => hasPre accPre kv.1) ↔
      (kv ∈ e ∧ bytesLe (accPre ++ seek) kv.1 = true ∧ hasPre accPre kv.1 = true) := by
    intro kv
    rw [htake, List.mem_filter, mem_sortPairs, List.mem_filter]
    tauto
  refine ⟨?_, ?_, ?_⟩
  · rw [diskAccountIterator, List.pairwise_map]
    have hsub : List.Sublist
        ((sortPairs (e.filter fun kv => bytesLe (accPre ++ seek) kv.1)).takeWhile
          (fun kv => hasPre accPre kv.1))
        (sortPairs (e.filter fun kv => bytesLe (accPre ++ seek) kv.1)) :=
      List.takeWhile_sublist _
    have hpw := pairwise_lt_of_sorted_nodup
      (List.Pairwise.sublist hsub hsorted)
      ((hsub.map Prod.fst).nodup hndT)
    refine hpw.imp_of_mem ?_
    intro p q hp hq hlt
    have hp' := ((hmemT p).mp hp).2.2
    have hq' := ((hmemT q).mp hq).2.2
    rcases (hasPre_iff _ _).mp hp' with ⟨tp, htp⟩
    rcases (hasPre_iff _ _).mp hq' with ⟨tq, htq⟩
    have htp' : p.1 = 0x61 :: tp := htp
    have htq' : q.1 = 0x61 :: tq := htq
    rw [htp', htq'] at hlt
    rw [htp', htq']
    show bytesLt ((0x61 :: tp).drop 1) ((0x61 :: tq).drop 1) = true
    rw [List.drop_one, List.drop_one]
    rw [bytesLt_cons_same] at hlt
    exact hlt
  · intro h v
    rw [diskAccountIterator, List.mem_map]
    constructor
    · rintro ⟨kv, hkv, hf⟩
      obtain ⟨hin, hge, hpre⟩ := (hmemT kv).mp hkv
      rcases (hasPre_iff _ _).mp hpre with ⟨t, ht⟩
      have ht' : kv.1 = 0x61 :: t := ht
      have hh : t = h := by
        have := congrArg Prod.fst hf
        simp only at this
        rw [ht'] at this
        exact this
      have hv : kv.2 = v := congrArg Prod.snd hf
      subst hh
      refine ⟨?_, ?_⟩
      · rw [← ht', ← hv]
        exact hin
      · rw [ht'] at hge
        rwa [show accPre ++ seek = 0x61 :: seek from rfl, bytesLe_cons_same] at hge
    · rintro ⟨hin, hge⟩
      refine ⟨(0x61 :: h, v), (hmemT _).mpr ⟨hin, ?_, ?_⟩, ?_⟩
      · rw [show accPre ++ seek = 0x61 :: seek from rfl, bytesLe_cons_same]
        exact hge
      · exact (hasPre_accPre_cons _ _).mpr rfl
      · rfl
  · intro hnone
    by_contra hne
    cases hc : diskAccountIterator e seek with
    | nil => exact hne hc
    | cons p rest =>
      have hp : p ∈ diskAccountIterator e seek := by
        rw [hc]
        exact List.mem_cons_self _ _
      have := (by
        rw [diskAccountIterator, List.mem_map] at hp
        obtain ⟨kv, hkv, hf⟩ := hp
        obtain ⟨hin, hge, hpre⟩ := (hmemT kv).mp hkv
        rcases (hasPre_iff _ _).mp hpre with ⟨t, ht⟩
        have ht' : kv.1 = 0x61 :: t := ht
        have h1 : (0x61 :: t, kv.2) ∈ e := by rw [← ht']; exact hin
        have h2 : bytesLe seek t = true := by
          rw [ht'] at hge
          rwa [show accPre ++ seek = 0x61 :: seek from rfl, bytesLe_cons_same] at hge
        exact absurd h2 (by rw [hnone t kv.2 h1]; simp) : False)
      exact this

end Snapshot

namespace Memorydb

theorem runIterAux_succ (it : Iter) (n : Nat) :
    runIterAux it (n + 1) =
      if (iterNext it).1 then
        (((iterKey (iterNext it).2).getD [], (iterValue (iterNext it).2).getD []) ::
          (runIterAux (iterNext it).2 n).1, (runIterAux (iterNext it).2 n).2)
      else ([], (iterNext it).2) := rfl

theorem runIterAux_spec (keys values : List Bytes) :
    ∀ (fuel : Nat) (i : Int), -1 ≤ i → i < (keys.length : Int) →
    values.length = keys.length →
    (keys.length : Int) - i ≤ (fuel : Int) →
    runIterAux ⟨i, keys, values⟩ fuel =
      ((keys.zip values).drop (i + 1).toNat, ⟨(keys.length : Int), keys, values⟩) := by
  intro fuel
  induction fuel with
  | zero =>
    intro i h1 h2 h3 h4
    exact absurd h4 (by push_cast; omega)
  | succ n ih =>
    intro i h1 h2 h3 h4
    have hstep : iterNext ⟨i, keys, values⟩ =
        (decide (i + 1 < (keys.length : Int)), ⟨i + 1, keys, values⟩) := by
      rw [iterNext, if_neg (not_le.mpr h2)]
    rw [runIterAux_succ, hstep]
    by_cases hlt : i + 1 < (keys.length : Int)
    · rw [if_pos (by simpa using hlt)]
      rw [ih (i + 1) (by omega) hlt h3 (by push_cast at h4 ⊢; omega)]
      have hnn : 0 ≤ i + 1 := by omega
      have hjlen : (i + 1).toNat < keys.length := by omega
      have hjlenv : (i + 1).toNat < values.length := by omega
      have hkey : iterKey ⟨i + 1, keys, values⟩ = some (keys[(i + 1).toNat]) := by
        rw [iterKey, if_neg (by simp; omega)]
        exact List.getElem?_eq_getElem hjlen
      have hval : iterValue ⟨i + 1, keys, values⟩ = some (values[(i + 1).toNat]) := by
        rw [iterValue, if_neg (by simp; omega)]
        exact List.getElem?_eq_getElem hjlenv
      rw [hkey, hval]
      have hziplen : (i + 1).toNat < (keys.zip values).length := by
        rw [List.length_zip]
        omega
      have hdrop := List.drop_eq_getElem_cons hziplen
      have htn : (i + 1 + 1).toNat = (i + 1).toNat + 1 := by omega
      rw [htn]
      rw [hdrop]
      rw [List.getElem_zip]
      rfl
    · rw [if_neg (by simpa using hlt)]
      have heq : i + 1 = (keys.length : Int) := by omega
      have hdrop : (keys.zip values).drop (i + 1).toNat = [] := by
        apply List.drop_eq_nil_of_le
        rw [List.length_zip]
        omega
      rw [hdrop]
      refine congrArg _ ?_
      rw [heq]

theorem runIter_start (keys values : List Bytes) (hlen : values.length = keys.length) :
    runIter ⟨-1, keys, values⟩ =
      (keys.zip values, ⟨(keys.length : Int), keys, values⟩) := by
  rw [runIter]
  have := runIterAux_spec keys values (keys.length + 1) (-1) (by omega)
    (by omega) hlen (by push_cast; omega)
  simpa using this

/-- Claim C7: the memory database's NewIterator(prefix, start) yields exactly
the entries present at creation whose full key carries the prefix and is at
least prefix‖start, in strictly ascending byte order of the full key, and
Key/Value are nil before the first Next and after exhaustion. -/
theorem C7_iterator (db : Database) (e : Entries) (pre st : Bytes)
    (hdb : db.tbl = some e) (hnd : (keysOf e).Nodup) :
    iterKey (newIterator db pre st) = none ∧
    iterValue (newIterator db pre st) = none ∧
    List.Pairwise (fun p q : Bytes × Bytes => bytesLt p.1 q.1 = true)
      (runIter (newIterator db pre st)).1 ∧
    (∀ k v, (k, v) ∈ (runIter (newIterator db pre st)).1 ↔
      ((k, v) ∈ e ∧ hasPre pre k = true ∧ bytesLe (pre ++ st) k = true)) ∧
    iterKey (runIter (newIterator db pre st)).2 = none ∧
    iterValue (runIter (newIterator db pre st)).2 = none := by
  have hit : newIterator db pre st =
      ⟨-1,
        (sortPairs (e.filter fun kv => hasPre pre kv.1 && bytesLe (pre ++ st) kv.1)).map
          Prod.fst,
        (sortPairs (e.filter fun kv => hasPre pre kv.1 && bytesLe (pre ++ st) kv.1)).map
          Prod.snd⟩ := by
    rw [newIterator, hdb]
    rfl
  have hzip :
      ((sortPairs (e.filter fun kv => hasPre pre kv.1 && bytesLe (pre ++ st) kv.1)).map
        Prod.fst).zip
      ((sortPairs (e.filter fun kv => hasPre pre kv.1 && bytesLe (pre ++ st) kv.1)).map
        Prod.snd) =
      sortPairs (e.filter fun kv => hasPre pre kv.1 && bytesLe (pre ++ st) kv.1) := by
    have hu := List.unzip_eq_map
      (sortPairs (e.filter fun kv => hasPre pre kv.1 && bytesLe (pre ++ st) kv.1))
    have hz := List.zip_unzip
      (sortPairs (e.filter fun kv => hasPre pre kv.1 && bytesLe (pre ++ st) kv.1))
    rw [hu] at hz
    exact hz
  have hrun : runIter (newIterator db pre st) =
      (sortPairs (e.filter fun kv => hasPre pre kv.1 && bytesLe (pre ++ st) kv.1),
        ⟨(((sortPairs (e.filter fun kv => hasPre pre kv.1 && bytesLe (pre ++ st) kv.1)).map
          Prod.fst).length : Int),
        (sortPairs (e.filter fun kv => hasPre pre kv.1 && bytesLe (pre ++ st) kv.1)).map
          Prod.fst,
        (sortPairs (e.filter fun kv => hasPre pre kv.1 && bytesLe (pre ++ st) kv.1)).map
          Prod.snd⟩) := by
    rw [hit, runIter_start _ _ (by simp), hzip]
  have hndS : (keysOf (sortPairs
      (e.filter fun kv => hasPre pre kv.1 && bytesLe (pre ++ st) kv.1))).Nodup := by
    have h1 : (keysOf (e.filter fun kv => hasPre pre kv.1 && bytesLe (pre ++ st) kv.1)).Nodup :=
      ((List.filter_sublist e).map Prod.fst).nodup hnd
    exact ((sortPairs_perm _).map Prod.fst).nodup_iff.mpr h1
  refine ⟨?_, ?_, ?_, ?_, ?_, ?_⟩
  · rw [hit, iterKey, if_pos (by norm_num)]
  · rw [hit, iterValue, if_pos (by norm_num)]
  · rw [hrun]
    exact pairwise_lt_of_sorted_nodup (sortPairs_sorted _) hndS
  · intro k v
    rw [hrun]
    show (k, v) ∈ sortPairs _ ↔ _
    rw [mem_sortPairs, List.mem_filter]
    simp only [Bool.and_eq_true]
  · rw [hrun, iterKey, if_neg (by simp)]
    apply List.getElem?_eq_none
    simp
  · rw [hrun, iterValue, if_neg (by simp)]
    apply List.getElem?_eq_none
    simp

theorem applyKV_eq (e : Entries) (w : KVEntry) : applyKV e w = applyKOp e (kvToOp w) := by
  cases hd : w.del <;> simp [applyKV, kvToOp, hd, applyKOp]

theorem batchApply_eq (e : Entries) (ws : List KVEntry) :
    batchApply e ws = applyKOps e (ws.map kvToOp) := by
  induction ws generalizing e with
  | nil => rfl
  | cons w rest ih =>
    show batchApply (applyKV e w) rest = applyKOps (applyKOp e (kvToOp w)) (rest.map kvToOp)
    rw [applyKV_eq]
    exact ih _

theorem kvToOp_key (w : KVEntry) : (kvToOp w).key = w.key := by
  cases hd : w.del <;> simp [kvToOp, hd, KOp.key]

theorem lastOpOn_map_kvToOp (q : Bytes) (ws : List KVEntry) :
    lastOpOn q (ws.map kvToOp) = (lastKV q ws).map kvToOp := by
  induction ws with
  | nil => rfl
  | cons w rest ih =>
    rw [List.map_cons, lastOpOn, ih, lastKV]
    cases hl : lastKV q rest with
    | some o => simp
    | none =>
      simp only [Option.map_none', Option.none_or, kvToOp_key]
      by_cases hk : w.key = q <;> simp [hk]

/-- Claim C8: a KV snapshot is isolated from later mutations.  Taking a
snapshot and then running any sequence of Set, Delete or batch Write
operations leaves the snapshot ledger untouched, the snapshot still resolves
to the copy taken at creation, and its Get and Has return exactly the value
and presence the database held at creation. -/
theorem C8_snapshot_isolation (w : World) (ms : List DbMut) (k : Bytes) :
    (applyMuts (takeSnapshot w) ms).snaps = (takeSnapshot w).snaps ∧
    (applyMuts (takeSnapshot w) ms).snaps[w.snaps.length]? = some (newSnapshot w.db) ∧
    (snapGet (newSnapshot w.db) k =
      match lookupE (w.db.tbl.getD []) k with
      | some v => .ok v
      | none => .error .notFound) ∧
    snapHas (newSnapshot w.db) k = ((lookupE (w.db.tbl.getD []) k).isSome, none) := by
  have hsnaps : ∀ (w' : World) (ms' : List DbMut), (applyMuts w' ms').snaps = w'.snaps := by
    intro w' ms'
    induction ms' generalizing w' with
    | nil => rfl
    | cons m rest ih =>
      show (applyMuts (applyMut w' m) rest).snaps = w'.snaps
      rw [ih]
      cases m <;> rfl
  refine ⟨hsnaps _ _, ?_, ?_, rfl⟩
  · rw [hsnaps]
    show (w.snaps ++ [newSnapshot w.db])[w.snaps.length]? = some (newSnapshot w.db)
    exact List.getElem?_concat_length _ _
  · cases hl : lookupE (w.db.tbl.getD []) k <;> simp [snapGet, newSnapshot, hl]

/-- Claim C9: a Get for a key absent from an open memory database returns
(nil, false, e) with the non-nil not-found error, not a nil error: absence is
reported through the error value as well as the presence flag. -/
theorem C9_get_not_found (db : Database) (e : Entries) (k : Bytes)
    (hdb : db.tbl = some e) (habs : lookupE e k = none) :
    get db k = (none, false, some DbErr.notFound) := by
  simp [get, hdb, habs]

/-- Claim C10: batch.Write applies the buffered operations to the database
in buffer order, so a key touched several times ends at its last buffered
operation and every buffered operation is applied; Set and Delete buffer by
appending in call order. -/
theorem C10_batch_write (db : Database) (e : Entries) (b : Batch) (k : Bytes)
    (hdb : db.tbl = some e) :
    (batchWrite db b).tbl = some (batchApply e b.writes) ∧
    (∀ b' k' v', (batchSet b' k' v').writes = b'.writes ++ [⟨k', v', false⟩]) ∧
    (∀ b' k', (batchDelete b' k').writes = b'.writes ++ [⟨k', [], true⟩]) ∧
    lookupE (batchApply e b.writes) k =
      (match lastKV k b.writes with
      | some w => if w.del then none else some w.value
      | none => lookupE e k) := by
  refine ⟨by simp [batchWrite, hdb], fun _ _ _ => rfl, fun _ _ => rfl, ?_⟩
  rw [batchApply_eq, lookupE_applyKOps, lastOpOn_map_kvToOp]
  cases hl : lastKV k b.writes with
  | none => rfl
  | some w =>
    cases hd : w.del
    · simp [kvToOp, hd]
    · simp [kvToOp, hd]

end Memorydb

namespace Snapshot

theorem C3_witness :
    c3d.genMarker = some (wh 4) ∧ c3d.stale = false ∧
    diskAccountRLP c3d (wh 5) = .error .notCoveredYet ∧
    diskAccountRLP c3d (wh 3) = .ok [3] ∧
    diskStorage c3d (wh 5) (wh 9) = .error .notCoveredYet ∧
    diskStorage c3d (wh 3) (wh 9) = .ok [] := by
  have H5 := C3_not_covered_yet c3d (wh 4) (wh 5) (wh 9) rfl rfl
  have H3 := C3_not_covered_yet c3d (wh 4) (wh 3) (wh 9) rfl rfl
  refine ⟨rfl, rfl, ?_, ?_, ?_, ?_⟩
  · exact H5.1.mpr (by decide)
  · exact (H3.2.1 (by decide)).trans rfl
  · exact H5.2.2.1.mpr (by decide)
  · exact (H3.2.2.2 (by decide)).trans rfl

theorem C1_witness :
    update ⟨c1d, []⟩ c1root c1d.root c1dd = .ok c1t1 ∧
    capAll c1t1 c1root = .ok c1t2 ∧
    diskAccountRLP c1t2.disk (wh 3) = .ok [3, 3] ∧
    rawReadAccount c1t2.disk.kv (wh 3) = [3, 3] ∧
    diskAccountRLP c1t2.disk (wh 5) = .ok [] ∧
    diskStorage c1t2.disk (wh 5) (wh 0x50) = .ok [] ∧
    diskStorage c1t2.disk (wh 7) (wh 0x70) = .ok [0x71] ∧
    rawReadStorage c1t2.disk.kv (wh 7) (wh 0x70) = [0x71] ∧
    lookupE c1t2.disk.kv (accKey (wh 1)) = lookupE c1d.kv (accKey (wh 1)) := by
  have hu : update ⟨c1d, []⟩ c1root c1d.root c1dd = .ok c1t1 := by decide
  have hcap : capAll c1t1 c1root = .ok c1t2 := by decide
  have H := C1_disk_merge c1d c1root c1dd c1t1 c1t2 rfl hu hcap
    (by decide) (by decide) (by decide) (by decide) (by decide) (by decide) (by decide)
  refine ⟨hu, hcap, ?_, ?_, ?_, ?_, ?_, ?_, ?_⟩
  · exact (H.1 (wh 3, [3, 3]) (by decide)).1
  · exact (H.1 (wh 3, [3, 3]) (by decide)).2
  · exact ((H.2.1 (wh 5) (by decide)).1).1
  · exact ((H.2.1 (wh 5) (by decide)).2 (wh 0x50) [0x50] (by decide)).1
  · exact (H.2.2.1 (wh 7, [(wh 0x70, [0x71])]) (by decide) (wh 0x70, [0x71]) (by decide)).1
  · exact (H.2.2.1 (wh 7, [(wh 0x70, [0x71])]) (by decide) (wh 0x70, [0x71]) (by decide)).2
  · exact H.2.2.2.1 (wh 1) (by decide) (by decide)

theorem C2_witness :
    c2d.genMarker = some c2m ∧
    update ⟨c2d, []⟩ c2root c2d.root c2dd = .ok c2t1 ∧
    capAll c2t1 c2root = .ok c2t2 ∧
    lookupE c2t2.disk.kv (accKey (wh 5)) = none ∧
    lookupE c2t2.disk.kv (accKey (wh 8)) = none ∧
    lookupE c2t2.disk.kv (stoKey (wh 6) (wh 0x60)) = none ∧
    lookupE c2t2.disk.kv (stoKey (wh 7) (wh 0x70)) = none ∧
    lookupE c2t2.disk.kv (accKey (wh 3)) = some [3, 3] ∧
    lookupE c2t2.disk.kv (stoKey (wh 3) (wh 0x30)) = some [0x31] ∧
    lookupE c2t2.disk.kv (accKey (wh 1)) = none := by
  have hu : update ⟨c2d, []⟩ c2root c2d.root c2dd = .ok c2t1 := by decide
  have hcap : capAll c2t1 c2root = .ok c2t2 := by decide
  have H := C2_partial_merge c2d c2m c2root c2dd c2t1 c2t2 rfl hu hcap
    (by decide) (by decide) (by decide) (by decide) (by decide) (by decide)
    (by decide) (by decide)
  refine ⟨rfl, hu, hcap, ?_, ?_, ?_, ?_, ?_, ?_, ?_⟩
  · exact H.1 (wh 5) (by decide)
  · exact H.1 (wh 8) (by decide)
  · exact H.2.1 (wh 6) (wh 0x60) (by decide)
  · exact H.2.1 (wh 7) (wh 0x70) (by decide)
  · exact (H.2.2.1 (wh 3, [3, 3]) (by decide) (by decide)).trans (by decide)
  · exact (H.2.2.2.2 (wh 3, [(wh 0x30, [0x31])]) (by decide) (wh 0x30, [0x31])
      (by decide) (by decide)).trans (by decide)
  · exact H.2.2.2.1 (wh 1) (by decide) (by decide)

theorem C4_witness :
    c4d.genMarker = some (wh 9) ∧
    update ⟨c4d, []⟩ c4r1 c4d.root c4dd1 = .ok c4t1 ∧
    capAll c4t1 c4r1 = .ok c4t2 ∧
    update ⟨c4d2, []⟩ c4r2 c4d2.root c4dd2 = .ok c4t3 ∧
    capAll c4t3 c4r2 = .ok c4t4 ∧
    ((lookupE c4t2.disk.kv genKey).bind decodeGenerator).map JournalGen.marker =
      some (wh 9) ∧
    ((lookupE c4t4.disk.kv genKey).bind decodeGenerator).map JournalGen.marker =
      some [] := by
  have hu1 : update ⟨c4d, []⟩ c4r1 c4d.root c4dd1 = .ok c4t1 := by decide
  have hc1 : capAll c4t1 c4r1 = .ok c4t2 := by decide
  have hu2 : update ⟨c4d2, []⟩ c4r2 c4d2.root c4dd2 = .ok c4t3 := by decide
  have hc2 : capAll c4t3 c4r2 = .ok c4t4 := by decide
  have H := C4_generator_persistence c4d (wh 9) c4r1 c4r2 c4dd1 c4dd2 c4t1 c4t2 c4t3 c4t4
    rfl hu1 hc1 hu2 hc2
  exact ⟨rfl, hu1, hc1, hu2, hc2, H.1, H.2⟩

theorem C5_witness :
    capAll c5t c5r2 = .ok c5tf ∧
    snapshotL c5tf c5r2 = some (.disk c5tf.disk) ∧
    snapshotL c5tf c5r1 = none ∧
    snapshotL c5tf c5d.root = none := by
  have hcap : capAll c5t c5r2 = .ok c5tf := by decide
  have H := C5_cap_zero c5t c5r2 c5tf hcap
  exact ⟨hcap, by decide, H.2 c5r1 (by decide), H.2 c5d.root (by decide)⟩

theorem C6_witness :
    (keysOf c6e).Nodup ∧
    diskAccountIterator c6e (wh 3) = [(wh 4, [4])] ∧
    diskAccountIterator c6e [0xFF] = [] ∧
    (wh 4, [4]) ∈ diskAccountIterator c6e (wh 3) := by
  have H := C6_disk_seek c6e (wh 3) (by decide)
  exact ⟨by decide, by decide, by decide,
    (H.2.1 (wh 4) [4]).mpr ⟨by decide, by decide⟩⟩

end Snapshot

namespace Memorydb

theorem C7_witness :
    c7db.tbl = some [([1, 2], [5]), ([2, 2], [7]), ([1, 3], [6])] ∧
    (keysOf [([1, 2], [5]), ([2, 2], [7]), ([1, 3], [6])]).Nodup ∧
    iterKey (newIterator c7db [1] [2]) = none ∧
    (runIter (newIterator c7db [1] [2])).1 = [([1, 2], [5]), ([1, 3], [6])] ∧
    ([1, 2], [5]) ∈ (runIter (newIterator c7db [1] [2])).1 ∧
    iterKey (runIter (newIterator c7db [1] [2])).2 = none := by
  have H := C7_iterator c7db [([1, 2], [5]), ([2, 2], [7]), ([1, 3], [6])] [1] [2]
    rfl (by decide)
  exact ⟨rfl, by decide, H.1, by decide,
    (H.2.2.2.1 [1, 2] [5]).mpr ⟨by decide, by decide, by decide⟩, H.2.2.2.2.1⟩

theorem C9_witness :
    c9db.tbl = some [([1], [2])] ∧ lookupE [([1], [2])] [9] = none ∧
    get c9db [9] = (none, false, some DbErr.notFound) :=
  ⟨rfl, by decide, C9_get_not_found c9db [([1], [2])] [9] rfl (by decide)⟩

theorem C10_witness :
    c10db.tbl = some [([1], [10])] ∧
    (batchWrite c10db c10b).tbl = some (batchApply [([1], [10])] c10b.writes) ∧
    lookupE (batchApply [([1], [10])] c10b.writes) [1] = some [13] ∧
    lookupE (batchApply [([1], [10])] c10b.writes) [2] = some [12] := by
  have H := C10_batch_write c10db [([1], [10])] c10b [1] rfl
  have H2 := C10_batch_write c10db [([1], [10])] c10b [2] rfl
  exact ⟨rfl, H.1, H.2.2.2.trans (by decide), H2.2.2.2.trans (by decide)⟩

end Memorydb
